import Mathlib

/-!
Verification of the gfs.py toy Google-File-System model.

The Python source (src/gfs.py) has three classes:
* `GFSMaster`  — file table (name → chunk-id list), chunk table (chunk id →
  server index), round-robin cursor, fixed pool of chunkservers;
* `GFSChunkserver` — per-server store of chunk payloads keyed by chunk id;
* `GFSClient`  — write / write_append / read / delete / exists, chunk
  splitting and reassembly.

Shallow embedding conventions:
* Python dicts become association lists with `lookupA` / `insertA` / `eraseA`
  (lookup semantics of a dict; `del` is `eraseA`).
* `uuid.uuid1()` produces a globally unique fresh token; it is modelled by a
  monotone counter `nextId` carried in the state (each allocation returns the
  current value and increments it), so ids are unique exactly as uuids are.
* `time.time()` in `delete` is modelled by a monotone clock `clock` in the
  state whose value is stamped into the renamed key.
* Byte strings are `List Nat`.
* Python exceptions become an `Except GFSError` result; `GFSError` records
  the kind of exception each `raise` site (or builtin error) produces.
-/

/-- Byte payloads: a Python (2.x) `str` is a byte string. -/
abbrev Bytes := List Nat

/-- The kinds of exception the Python code can raise. -/
inductive GFSError where
  /-- `raise Exception("read error, file does not exist: " + filename)` -/
  | readError (filename : String)
  /-- `raise Exception("append error, file does not exist: " + filename)` -/
  | appendError (filename : String)
  /-- Python `KeyError` from a dict subscript on a missing key. -/
  | keyError
  /-- `IOError` from the chunkserver opening a chunk file never written. -/
  | chunkNotFound
  /-- Python `IndexError` from `chunks[i]` past the end. -/
  | indexError
  /-- Python 2 `TypeError` from `reduce` over an empty sequence. -/
  | typeError
  deriving DecidableEq, Repr

/-- Dict lookup: `d[k]` viewed as an `Option`. -/
def lookupA {α β : Type} [DecidableEq α] (k : α) : List (α × β) → Option β
  | [] => none
  | (k', v) :: t => if k = k' then some v else lookupA k t

/-- Dict update `d[k] = v`: replace the binding in place, or add it. -/
def insertA {α β : Type} [DecidableEq α] (l : List (α × β)) (k : α) (v : β) :
    List (α × β) :=
  match l with
  | [] => [(k, v)]
  | (k', v') :: t => if k = k' then (k, v) :: t else (k', v') :: insertA t k v

/-- Dict deletion `del d[k]`: remove the (first) binding for `k`. -/
def eraseA {α β : Type} [DecidableEq α] (l : List (α × β)) (k : α) :
    List (α × β) :=
  match l with
  | [] => []
  | (k', v') :: t => if k = k' then t else (k', v') :: eraseA t k

theorem lookupA_insertA {α β : Type} [DecidableEq α]
    (l : List (α × β)) (k k' : α) (v : β) :
    lookupA k' (insertA l k v) = if k' = k then some v else lookupA k' l := by
  induction l with
  | nil => simp [insertA, lookupA]
  | cons p t ih =>
    obtain ⟨a, b⟩ := p
    simp only [insertA]
    by_cases hka : k = a
    · subst hka
      rw [if_pos rfl]
      by_cases h2 : k' = k
      · rw [lookupA, if_pos h2, if_pos h2]
      · rw [lookupA, if_neg h2, if_neg h2, lookupA, if_neg h2]
    · rw [if_neg hka]
      by_cases h2 : k' = a
      · have hk'k : k' ≠ k := fun hh => hka (hh.symm.trans h2)
        rw [lookupA, if_pos h2, if_neg hk'k, lookupA, if_pos h2]
      · rw [lookupA, if_neg h2, ih, lookupA, if_neg h2]

theorem lookupA_insertA_self {α β : Type} [DecidableEq α]
    (l : List (α × β)) (k : α) (v : β) :
    lookupA k (insertA l k v) = some v := by
  simp [lookupA_insertA]

theorem lookupA_insertA_ne {α β : Type} [DecidableEq α]
    (l : List (α × β)) {k k' : α} (v : β) (h : k' ≠ k) :
    lookupA k' (insertA l k v) = lookupA k' l := by
  simp [lookupA_insertA, h]

theorem lookupA_eraseA_ne {α β : Type} [DecidableEq α]
    (l : List (α × β)) {k k' : α} (h : k' ≠ k) :
    lookupA k' (eraseA l k) = lookupA k' l := by
  induction l with
  | nil => simp [eraseA]
  | cons p t ih =>
    obtain ⟨a, b⟩ := p
    by_cases hka : k = a
    · subst hka; simp [eraseA, lookupA, h]
    · by_cases h2 : k' = a <;> simp [eraseA, lookupA, hka, h2, ih]

theorem lookupA_eq_none {α β : Type} [DecidableEq α]
    {l : List (α × β)} {k : α} (h : k ∉ l.map Prod.fst) :
    lookupA k l = none := by
  induction l with
  | nil => rfl
  | cons p t ih =>
    obtain ⟨a, b⟩ := p
    simp only [List.map_cons, List.mem_cons, not_or] at h
    rw [lookupA, if_neg h.1]
    exact ih h.2

theorem lookupA_eraseA_self {α β : Type} [DecidableEq α]
    (l : List (α × β)) (k : α) (hnd : (l.map Prod.fst).Nodup) :
    lookupA k (eraseA l k) = none := by
  induction l with
  | nil => rfl
  | cons p t ih =>
    obtain ⟨a, b⟩ := p
    simp only [List.map_cons, List.nodup_cons] at hnd
    by_cases hka : k = a
    · subst hka
      rw [eraseA, if_pos rfl]
      exact lookupA_eq_none hnd.1
    · rw [eraseA, if_neg hka, lookupA, if_neg hka]
      exact ih hnd.2

theorem keys_insertA_mem {α β : Type} [DecidableEq α]
    (l : List (α × β)) (k : α) (v : β) (h : k ∈ l.map Prod.fst) :
    (insertA l k v).map Prod.fst = l.map Prod.fst := by
  induction l with
  | nil => simp at h
  | cons p t ih =>
    obtain ⟨a, b⟩ := p
    by_cases hka : k = a
    · subst hka; simp [insertA]
    · simp only [List.map_cons, List.mem_cons] at h
      rcases h with h | h

      · exact absurd h hka
      · simp [insertA, hka, ih h]

theorem insertA_not_mem {α β : Type} [DecidableEq α]
    (l : List (α × β)) (k : α) (v : β) (h : k ∉ l.map Prod.fst) :
    insertA l k v = l ++ [(k, v)] := by
  induction l with
  | nil => simp [insertA]
  | cons p t ih =>
    obtain ⟨a, b⟩ := p
    simp only [List.map_cons, List.mem_cons, not_or] at h
    simp [insertA, h.1, ih h.2]

theorem keys_insertA_nodup {α β : Type} [DecidableEq α]
    (l : List (α × β)) (k : α) (v : β) (h : (l.map Prod.fst).Nodup) :
    ((insertA l k v).map Prod.fst).Nodup := by
  by_cases hm : k ∈ l.map Prod.fst
  · rwa [keys_insertA_mem l k v hm]
  · rw [insertA_not_mem l k v hm]
    simp only [List.map_append, List.map_cons, List.map_nil]
    refine List.Nodup.append h (List.nodup_singleton k) ?_
    intro a ha hb
    simp only [List.mem_singleton] at hb
    subst hb
    exact hm ha

theorem keys_eraseA_sublist {α β : Type} [DecidableEq α]
    (l : List (α × β)) (k : α) :
    ((eraseA l k).map Prod.fst).Sublist (l.map Prod.fst) := by
  induction l with
  | nil => simp [eraseA]
  | cons p t ih =>
    obtain ⟨a, b⟩ := p
    by_cases hka : k = a
    · subst hka; simp only [eraseA, if_pos rfl, List.map_cons]
      exact (List.sublist_cons_self _ _)
    · simpa [eraseA, hka] using ih.cons₂ a

theorem keys_eraseA_nodup {α β : Type} [DecidableEq α]
    (l : List (α × β)) (k : α) (h : (l.map Prod.fst).Nodup) :
    ((eraseA l k).map Prod.fst).Nodup :=
  (keys_eraseA_sublist l k).nodup h

theorem lookupA_isSome_of_keys {α β : Type} [DecidableEq α]
    (l : List (α × β)) (k : α) (h : k ∈ l.map Prod.fst) :
    (lookupA k l).isSome = true := by
  induction l with
  | nil => simp at h
  | cons p t ih =>
    obtain ⟨a, b⟩ := p
    by_cases hka : k = a
    · simp [lookupA, hka]
    · simp only [List.map_cons, List.mem_cons] at h
      rcases h with h | h
      · exact absurd h hka
      · simp [lookupA, hka, ih h]

theorem keys_of_lookupA_isSome {α β : Type} [DecidableEq α]
    (l : List (α × β)) (k : α) (h : (lookupA k l).isSome = true) :
    k ∈ l.map Prod.fst := by
  induction l with
  | nil => simp [lookupA] at h
  | cons p t ih =>
    obtain ⟨a, b⟩ := p
    by_cases hka : k = a
    · simp [hka]
    · simp only [lookupA, if_neg hka] at h
      simp [ih h]

theorem mem_of_lookupA_eq_some {α β : Type} [DecidableEq α]
    {l : List (α × β)} {k : α} {v : β} (h : lookupA k l = some v) :
    (k, v) ∈ l := by
  induction l with
  | nil => simp [lookupA] at h
  | cons p t ih =>
    obtain ⟨a, b⟩ := p
    by_cases hka : k = a
    · subst hka
      rw [lookupA, if_pos rfl] at h
      injection h with h
      subst h
      exact List.mem_cons_self _ _
    · rw [lookupA, if_neg hka] at h
      exact List.mem_cons_of_mem _ (ih h)

/-- The whole-system state: master metadata plus the chunkserver pool.
Fields mirror `GFSMaster.__init__` (src/gfs.py); each chunkserver's own
`chunktable` is the `Bytes` association list held in `chunkservers`.
`nextId` models the `uuid.uuid1()` source, `clock` models `time.time()`. -/
structure GFSState where
  num_chunkservers : Nat
  chunksize : Nat
  chunkrobin : Nat
  filetable : List (String × List Nat)
  chunktable : List (Nat × Nat)
  chunkservers : List (Nat × List (Nat × Bytes))
  nextId : Nat
  clock : Nat
  deriving Repr, DecidableEq

/-- `GFSMaster()` — five chunkservers, chunk size 10, cursor 0, empty tables. -/
def initState : GFSState :=
  { num_chunkservers := 5
    chunksize := 10
    chunkrobin := 0
    filetable := []
    chunktable := []
    chunkservers := (List.range 5).map (fun i => (i, []))
    nextId := 0
    clock := 0 }

namespace GFSChunkserver

/-- `GFSChunkserver.write`: persist the chunk under its id and record it. -/
def write (table : List (Nat × Bytes)) (chunkuuid : Nat) (chunk : Bytes) :
    List (Nat × Bytes) :=
  insertA table chunkuuid chunk

/-- `GFSChunkserver.read`: open the chunk's file; `IOError` if never written. -/
def read (table : List (Nat × Bytes)) (chunkuuid : Nat) : Except GFSError Bytes :=
  match lookupA chunkuuid table with
  | none => .error .chunkNotFound
  | some data => .ok data

end GFSChunkserver

namespace GFSMaster

/-- `GFSMaster.alloc_chunks`: generate `num_chunks` fresh ids, assign each the
current round-robin location, record the placements, advance the cursor. -/
def alloc_chunks (s : GFSState) : Nat → List Nat × GFSState
  | 0 => ([], s)
  | n + 1 =>
    let chunkuuid := s.nextId
    let chunkloc := s.chunkrobin
    let s1 : GFSState :=
      { s with
        chunktable := insertA s.chunktable chunkuuid chunkloc
        nextId := chunkuuid + 1
        chunkrobin := (s.chunkrobin + 1) % s.num_chunkservers }
    let pr := alloc_chunks s1 n
    (chunkuuid :: pr.1, pr.2)

/-- `GFSMaster.alloc`: allocate and record the ordered id list for the file. -/
def alloc (s : GFSState) (filename : String) (num_chunks : Nat) :
    List Nat × GFSState :=
  let pr := alloc_chunks s num_chunks
  (pr.1, { pr.2 with filetable := insertA pr.2.filetable filename pr.1 })

/-- `GFSMaster.alloc_append`: `KeyError` if the file is absent; otherwise
allocate fresh ids, extend the file's sequence, return only the new ids. -/
def alloc_append (s : GFSState) (filename : String) (num_append_chunks : Nat) :
    Except GFSError (List Nat × GFSState) :=
  match lookupA filename s.filetable with
  | none => .error .keyError
  | some chunkuuids =>
    let pr := alloc_chunks s num_append_chunks
    .ok (pr.1,
      { pr.2 with
        filetable := insertA pr.2.filetable filename (chunkuuids ++ pr.1) })

/-- `GFSMaster.get_chunkloc`: `self.chunktable[chunkuuid]`. -/
def get_chunkloc (s : GFSState) (chunkuuid : Nat) : Except GFSError Nat :=
  match lookupA chunkuuid s.chunktable with
  | none => .error .keyError
  | some chunkloc => .ok chunkloc

/-- `GFSMaster.get_chunkuuids`: `self.filetable[filename]`. -/
def get_chunkuuids (s : GFSState) (filename : String) :
    Except GFSError (List Nat) :=
  match lookupA filename s.filetable with
  | none => .error .keyError
  | some chunkuuids => .ok chunkuuids

/-- `GFSMaster.exists`: membership test on the file table. -/
def exists' (s : GFSState) (filename : String) : Bool :=
  (lookupA filename s.filetable).isSome

/-- The renamed key `delete` produces: `"/hidden/deleted/" + timestamp + filename`. -/
def deleted_filename (s : GFSState) (filename : String) : String :=
  "/hidden/deleted/" ++ toString s.clock ++ filename

/-- `GFSMaster.delete`: remove the live entry and reinsert the identical id
sequence under the timestamped key in the deleted namespace. -/
def delete (s : GFSState) (filename : String) : Except GFSError GFSState :=
  match lookupA filename s.filetable with
  | none => .error .keyError
  | some chunkuuids =>
    .ok { s with
          filetable :=
            insertA (eraseA s.filetable filename)
              (deleted_filename s filename) chunkuuids
          clock := s.clock + 1 }

end GFSMaster

namespace GFSClient

/-- `GFSClient.num_chunks`: `size // chunksize + (1 if size % chunksize > 0 else 0)`. -/
def num_chunks (s : GFSState) (size : Nat) : Nat :=
  size / s.chunksize + (if size % s.chunksize > 0 then 1 else 0)

/-- The slicing in `write_chunks`:
`[data[x : x + chunksize] for x in range(0, len(data), chunksize)]`.
The fuel argument (`data.length` at the top call) only drives termination;
for positive `chunksize` the recursion consumes the list strictly. -/
def split_aux (chunksize : Nat) : Nat → Bytes → List Bytes
  | _, [] => []
  | 0, _ :: _ => []
  | fuel + 1, a :: d =>
    (a :: d).take chunksize :: split_aux chunksize fuel ((a :: d).drop chunksize)

/-- The chunk list `write_chunks` computes from `data`. -/
def split_chunks (chunksize : Nat) (data : Bytes) : List Bytes :=
  split_aux chunksize data.length data

/-- The loop body of `GFSClient.write_chunks`: for each id (in order) look up
its location and store the positionally matching slice on that server.
`chunks[i]` past the end is an `IndexError`; slices beyond the ids are
ignored, as in the Python `range(0, len(chunkuuids))` loop. -/
def write_chunks_loop (s : GFSState) :
    List Nat → List Bytes → Except GFSError GFSState
  | [], _ => .ok s
  | _ :: _, [] => .error .indexError
  | chunkuuid :: ids, chunk :: rest =>
    match GFSMaster.get_chunkloc s chunkuuid with
    | .error e => .error e
    | .ok chunkloc =>
      match lookupA chunkloc s.chunkservers with
      | none => .error .keyError
      | some srv =>
        write_chunks_loop
          { s with
            chunkservers :=
              insertA s.chunkservers chunkloc
                (GFSChunkserver.write srv chunkuuid chunk) }
          ids rest

/-- `GFSClient.write_chunks`. -/
def write_chunks (s : GFSState) (chunkuuids : List Nat) (data : Bytes) :
    Except GFSError GFSState :=
  write_chunks_loop s chunkuuids (split_chunks s.chunksize data)

/-- `GFSClient.exists`. -/
def exists' (s : GFSState) (filename : String) : Bool :=
  GFSMaster.exists' s filename

/-- `GFSClient.write`: delete first if the name exists (overwrite), then
allocate `num_chunks` ids and store the slices. -/
def write (s : GFSState) (filename : String) (data : Bytes) :
    Except GFSError GFSState :=
  match (if exists' s filename
         then GFSMaster.delete s filename
         else .ok s : Except GFSError GFSState) with
  | .error e => .error e
  | .ok s1 =>
    let pr := GFSMaster.alloc s1 filename (num_chunks s1 data.length)
    write_chunks pr.2 pr.1 data

/-- `GFSClient.write_append`: fail if the file does not exist, else allocate
append chunks and store the slices. -/
def write_append (s : GFSState) (filename : String) (data : Bytes) :
    Except GFSError GFSState :=
  if exists' s filename then
    match GFSMaster.alloc_append s filename (num_chunks s data.length) with
    | .error e => .error e
    | .ok (append_chunkuuids, s1) => write_chunks s1 append_chunkuuids data
  else .error (.appendError filename)

/-- The chunk-fetch loop of `GFSClient.read`, in sequence order. -/
def read_loop (s : GFSState) : List Nat → Except GFSError (List Bytes)
  | [] => .ok []
  | chunkuuid :: ids =>
    match GFSMaster.get_chunkloc s chunkuuid with
    | .error e => .error e
    | .ok chunkloc =>
      match lookupA chunkloc s.chunkservers with
      | none => .error .keyError
      | some srv =>
        match GFSChunkserver.read srv chunkuuid with
        | .error e => .error e
        | .ok chunk =>
          match read_loop s ids with
          | .error e => .error e
          | .ok rest => .ok (chunk :: rest)

/-- `reduce(lambda x, y: x + y, chunks)`: Python 2 `reduce` with no
initializer raises `TypeError` on an empty sequence. -/
def reduce_concat : List Bytes → Except GFSError Bytes
  | [] => .error .typeError
  | c :: rest => .ok (rest.foldl (fun x y => x ++ y) c)

/-- `GFSClient.read`: metadata lookup, per-chunk fetch, in-order reassembly. -/
def read (s : GFSState) (filename : String) : Except GFSError Bytes :=
  if exists' s filename then
    match GFSMaster.get_chunkuuids s filename with
    | .error e => .error e
    | .ok chunkuuids =>
      match read_loop s chunkuuids with
      | .error e => .error e
      | .ok chunks => reduce_concat chunks
  else .error (.readError filename)

/-- `GFSClient.delete`. -/
def delete (s : GFSState) (filename : String) : Except GFSError GFSState :=
  GFSMaster.delete s filename

end GFSClient

/-! ### Arithmetic of `num_chunks` -/

theorem num_chunks_zero (s : GFSState) : GFSClient.num_chunks s 0 = 0 := by
  simp [GFSClient.num_chunks]

theorem num_chunks_eq_ceil (s : GFSState) (L : Nat) (hCS : 0 < s.chunksize) :
    GFSClient.num_chunks s L = (L + s.chunksize - 1) / s.chunksize := by
  unfold GFSClient.num_chunks
  obtain ⟨q, r, hr, hL⟩ : ∃ q r, r < s.chunksize ∧ L = s.chunksize * q + r :=
    ⟨L / s.chunksize, L % s.chunksize, Nat.mod_lt _ hCS,
      (Nat.div_add_mod L s.chunksize).symm⟩
  subst hL
  rcases Nat.eq_zero_or_pos r with hr0 | hr0
  · subst hr0
    have h1 : s.chunksize * q + 0 + s.chunksize - 1
        = s.chunksize * q + (s.chunksize - 1) := by omega
    rw [h1, Nat.mul_add_div hCS, Nat.mul_add_div hCS, Nat.mul_add_mod,
      Nat.div_eq_of_lt (by omega : s.chunksize - 1 < s.chunksize)]
    simp
  · have h1 : s.chunksize * q + r + s.chunksize - 1
        = s.chunksize * (q + 1) + (r - 1) := by
      have h2 : s.chunksize * (q + 1) = s.chunksize * q + s.chunksize := by ring
      omega
    rw [h1, Nat.mul_add_div hCS, Nat.mul_add_div hCS, Nat.mul_add_mod,
      Nat.div_eq_of_lt (by omega : r - 1 < s.chunksize),
      Nat.div_eq_of_lt hr, Nat.mod_eq_of_lt hr, if_pos hr0]

theorem num_chunks_pos (s : GFSState) (L : Nat) (hCS : 0 < s.chunksize)
    (hL : 0 < L) : 0 < GFSClient.num_chunks s L := by
  unfold GFSClient.num_chunks
  rcases Nat.lt_or_ge L s.chunksize with h | h
  · rw [Nat.mod_eq_of_lt h, if_pos hL]
    exact Nat.add_pos_right _ Nat.one_pos
  · have h2 := Nat.div_le_div_right (c := s.chunksize) h
    rw [Nat.div_self hCS] at h2
    exact Nat.lt_of_lt_of_le h2 (Nat.le_add_right _ _)

/-! ### The chunk-splitting policy -/

theorem split_aux_flatten (cs : Nat) (hcs : 0 < cs) :
    ∀ (fuel : Nat) (d : Bytes), d.length ≤ fuel →
      (GFSClient.split_aux cs fuel d).flatten = d := by
  intro fuel
  induction fuel with
  | zero =>
    intro d hd
    rw [List.length_eq_zero.mp (Nat.le_zero.mp hd)]
    rfl
  | succ fuel ih =>
    intro d hd
    match d with
    | [] => rfl
    | a :: d =>
      rw [GFSClient.split_aux, List.flatten_cons]
      have hlen : ((a :: d).drop cs).length ≤ fuel := by
        rw [List.length_drop]
        simp only [List.length_cons] at hd ⊢
        omega
      rw [ih _ hlen, List.take_append_drop]

theorem split_chunks_flatten (cs : Nat) (hcs : 0 < cs) (d : Bytes) :
    (GFSClient.split_chunks cs d).flatten = d :=
  split_aux_flatten cs hcs d.length d (Nat.le_refl _)

theorem split_aux_length (cs : Nat) (hcs : 0 < cs) :
    ∀ (fuel : Nat) (d : Bytes), d.length ≤ fuel →
      (GFSClient.split_aux cs fuel d).length
        = d.length / cs + (if d.length % cs > 0 then 1 else 0) := by
  intro fuel
  induction fuel with
  | zero =>
    intro d hd
    rw [List.length_eq_zero.mp (Nat.le_zero.mp hd)]
    simp [GFSClient.split_aux]
  | succ fuel ih =>
    intro d hd
    match d with
    | [] => simp [GFSClient.split_aux]
    | a :: d =>
      rw [GFSClient.split_aux, List.length_cons]
      have hlen : ((a :: d).drop cs).length ≤ fuel := by
        rw [List.length_drop]
        simp only [List.length_cons] at hd ⊢
        omega
      rw [ih _ hlen, List.length_drop]
      have hL1 : 1 ≤ (a :: d).length := by simp
      rcases Nat.lt_or_ge (a :: d).length cs with h | h
      · have h0 : (a :: d).length - cs = 0 := by omega
        rw [h0, Nat.div_eq_of_lt h, Nat.mod_eq_of_lt h, Nat.zero_div,
          Nat.zero_mod, if_neg (by omega), if_pos (by omega)]
      · rw [Nat.div_eq_sub_div hcs h, Nat.mod_eq_sub_mod h]
        rcases Nat.eq_zero_or_pos (((a :: d).length - cs) % cs) with h2 | h2
        · rw [h2, if_neg (by omega)]
        · rw [if_pos h2]

theorem split_chunks_length (s : GFSState) (hcs : 0 < s.chunksize) (d : Bytes) :
    (GFSClient.split_chunks s.chunksize d).length = GFSClient.num_chunks s d.length :=
  split_aux_length s.chunksize hcs d.length d (Nat.le_refl _)

theorem split_aux_mem_length (cs : Nat) (hcs : 0 < cs) :
    ∀ (fuel : Nat) (d : Bytes), d.length ≤ fuel →
      ∀ c ∈ GFSClient.split_aux cs fuel d, 1 ≤ c.length ∧ c.length ≤ cs := by
  intro fuel
  induction fuel with
  | zero =>
    intro d hd c hc
    rw [List.length_eq_zero.mp (Nat.le_zero.mp hd)] at hc
    simp [GFSClient.split_aux] at hc
  | succ fuel ih =>
    intro d hd c hc
    match d with
    | [] => simp [GFSClient.split_aux] at hc
    | a :: d =>
      rw [GFSClient.split_aux] at hc
      have hlen : ((a :: d).drop cs).length ≤ fuel := by
        rw [List.length_drop]
        simp only [List.length_cons] at hd ⊢
        omega
      rcases List.mem_cons.mp hc with hc | hc
      · subst hc
        constructor
        · rw [List.length_take]
          simp [Nat.lt_of_lt_of_le (Nat.zero_lt_succ _) (Nat.le_refl _), hcs]
          omega
        · rw [List.length_take]
          omega
      · exact ih _ hlen c hc

theorem split_chunks_mem_length (cs : Nat) (hcs : 0 < cs) (d : Bytes) :
    ∀ c ∈ GFSClient.split_chunks cs d, 1 ≤ c.length ∧ c.length ≤ cs :=
  split_aux_mem_length cs hcs d.length d (Nat.le_refl _)

theorem split_aux_dropLast (cs : Nat) (hcs : 0 < cs) :
    ∀ (fuel : Nat) (d : Bytes), d.length ≤ fuel →
      ∀ c ∈ (GFSClient.split_aux cs fuel d).dropLast, c.length = cs := by
  intro fuel
  induction fuel with
  | zero =>
    intro d hd c hc
    rw [List.length_eq_zero.mp (Nat.le_zero.mp hd)] at hc
    simp [GFSClient.split_aux] at hc
  | succ fuel ih =>
    intro d hd c hc
    match d with
    | [] => simp [GFSClient.split_aux] at hc
    | a :: d =>
      rw [GFSClient.split_aux] at hc
      have hlen : ((a :: d).drop cs).length ≤ fuel := by
        rw [List.length_drop]
        simp only [List.length_cons] at hd ⊢
        omega
      rcases hrest : GFSClient.split_aux cs fuel ((a :: d).drop cs) with _ | ⟨r, rest⟩
      · rw [hrest] at hc
        simp at hc
      · rw [hrest, List.dropLast_cons₂] at hc
        rcases List.mem_cons.mp hc with hc | hc
        · subst hc
          -- the tail split is nonempty, so `drop cs` is nonempty, so `cs ≤ length`
          have hne : (a :: d).drop cs ≠ [] := by
            intro hdrop
            rw [hdrop] at hrest
            simp [GFSClient.split_aux] at hrest
          have hge : cs < (a :: d).length := by
            by_contra hgt
            exact hne (List.drop_eq_nil_of_le (by omega))
          rw [List.length_take]
          omega
        · have := ih _ hlen c
          rw [hrest] at this
          exact this hc

/-! ### Specification helpers -/

/-- The payload currently held for chunk id `chunkuuid` on server `chunkloc`. -/
def serverData (s : GFSState) (chunkloc chunkuuid : Nat) : Option Bytes :=
  (lookupA chunkloc s.chunkservers).bind (fun srv => lookupA chunkuuid srv)

/-- Chunk id `id` resolves (via the master's placement table) to a server
that holds exactly the payload `c` for it. -/
def StoredAt (s : GFSState) (id : Nat) (c : Bytes) : Prop :=
  ∃ loc, lookupA id s.chunktable = some loc ∧ serverData s loc id = some c

/-! ### Lookup across an append -/

theorem lookupA_append {α β : Type} [DecidableEq α]
    (l1 l2 : List (α × β)) (k : α) :
    lookupA k (l1 ++ l2)
      = match lookupA k l1 with
        | some v => some v
        | none => lookupA k l2 := by
  induction l1 with
  | nil => rfl
  | cons p t ih =>
    obtain ⟨a, b⟩ := p
    by_cases hka : k = a
    · simp [lookupA, hka]
    · simp only [List.cons_append, lookupA, if_neg hka]
      exact ih

theorem lookupA_append_first {α β : Type} [DecidableEq α]
    (l1 l2 : List (α × β)) (k : α) {v : β} (h : lookupA k l1 = some v) :
    lookupA k (l1 ++ l2) = some v := by
  rw [lookupA_append, h]

theorem lookupA_append_second {α β : Type} [DecidableEq α]
    (l1 l2 : List (α × β)) (k : α) (h : k ∉ l1.map Prod.fst) :
    lookupA k (l1 ++ l2) = lookupA k l2 := by
  rw [lookupA_append, lookupA_eq_none h]

/-! ### Behaviour of `alloc_chunks` -/

theorem alloc_chunks_fields (n : Nat) : ∀ s : GFSState,
    ((GFSMaster.alloc_chunks s n).2.num_chunkservers = s.num_chunkservers) ∧
    ((GFSMaster.alloc_chunks s n).2.chunksize = s.chunksize) ∧
    ((GFSMaster.alloc_chunks s n).2.filetable = s.filetable) ∧
    ((GFSMaster.alloc_chunks s n).2.chunkservers = s.chunkservers) ∧
    ((GFSMaster.alloc_chunks s n).2.clock = s.clock) ∧
    ((GFSMaster.alloc_chunks s n).2.nextId = s.nextId + n) ∧
    ((GFSMaster.alloc_chunks s n).1 = List.range' s.nextId n) := by
  induction n with
  | zero => intro s; simp [GFSMaster.alloc_chunks]
  | succ n ih =>
    intro s
    obtain ⟨h1, h2, h3, h4, h5, h6, h7⟩ :=
      ih { s with
            chunktable := insertA s.chunktable s.nextId s.chunkrobin
            nextId := s.nextId + 1
            chunkrobin := (s.chunkrobin + 1) % s.num_chunkservers }
    refine ⟨?_, ?_, ?_, ?_, ?_, ?_, ?_⟩ <;>
      simp only [GFSMaster.alloc_chunks, h1, h2, h3, h4, h5, h6, h7] <;>
      try omega
    rw [List.range'_succ]

theorem alloc_chunks_robin (n : Nat) : ∀ s : GFSState,
    s.chunkrobin < s.num_chunkservers →
    (GFSMaster.alloc_chunks s n).2.chunkrobin
      = (s.chunkrobin + n) % s.num_chunkservers := by
  induction n with
  | zero =>
    intro s h
    simp [GFSMaster.alloc_chunks, Nat.mod_eq_of_lt h]
  | succ n ih =>
    intro s h
    have hN : 0 < s.num_chunkservers := Nat.lt_of_le_of_lt (Nat.zero_le _) h
    have step := ih
      { s with
        chunktable := insertA s.chunktable s.nextId s.chunkrobin
        nextId := s.nextId + 1
        chunkrobin := (s.chunkrobin + 1) % s.num_chunkservers }
      (Nat.mod_lt _ hN)
    simp only [GFSMaster.alloc_chunks, step, Nat.mod_add_mod]
    congr 1
    omega

theorem alloc_chunks_ct (n : Nat) : ∀ s : GFSState,
    (∀ p ∈ s.chunktable, p.1 < s.nextId) →
    s.chunkrobin < s.num_chunkservers →
    (GFSMaster.alloc_chunks s n).2.chunktable
      = s.chunktable ++ (List.range n).map
          (fun i => (s.nextId + i, (s.chunkrobin + i) % s.num_chunkservers)) := by
  induction n with
  | zero => intro s _ _; simp [GFSMaster.alloc_chunks]
  | succ n ih =>
    intro s hfresh h
    have hN : 0 < s.num_chunkservers := Nat.lt_of_le_of_lt (Nat.zero_le _) h
    have hnm : s.nextId ∉ s.chunktable.map Prod.fst := by
      intro hm
      obtain ⟨p, hp, hp1⟩ := List.mem_map.mp hm
      exact absurd (hp1 ▸ hfresh p hp) (Nat.lt_irrefl _)
    have hins : insertA s.chunktable s.nextId s.chunkrobin
        = s.chunktable ++ [(s.nextId, s.chunkrobin)] :=
      insertA_not_mem _ _ _ hnm
    have step := ih
      { s with
        chunktable := insertA s.chunktable s.nextId s.chunkrobin
        nextId := s.nextId + 1
        chunkrobin := (s.chunkrobin + 1) % s.num_chunkservers }
      (by
        intro p hp
        simp only [hins, List.mem_append, List.mem_singleton] at hp
        rcases hp with hp | hp
        · exact Nat.lt_succ_of_lt (hfresh p hp)
        · subst hp; exact Nat.lt_succ_self _)
      (Nat.mod_lt _ hN)
    simp only [GFSMaster.alloc_chunks]
    rw [step]
    simp only [hins]
    rw [List.range_succ_eq_map, List.map_cons, List.map_map, List.append_assoc,
      List.singleton_append]
    congr 1
    congr 1
    · rw [Nat.add_zero, Nat.add_zero, Nat.mod_eq_of_lt h]
    · congr 1
      funext i
      simp only [Function.comp_apply, Nat.succ_eq_add_one, Nat.mod_add_mod]
      congr 1
      · omega
      · congr 1
        omega

theorem alloc_chunks_ct_lookup_old (s : GFSState) (n : Nat) (id : Nat)
    (hfresh : ∀ p ∈ s.chunktable, p.1 < s.nextId)
    (hrobin : s.chunkrobin < s.num_chunkservers) (hid : id < s.nextId) :
    lookupA id (GFSMaster.alloc_chunks s n).2.chunktable
      = lookupA id s.chunktable := by
  rw [alloc_chunks_ct n s hfresh hrobin, lookupA_append]
  rcases hct : lookupA id s.chunktable with _ | v
  · apply lookupA_eq_none
    intro hm
    simp only [List.map_map, List.mem_map, List.mem_range,
      Function.comp_apply] at hm
    obtain ⟨i, hi, hi1⟩ := hm
    omega
  · rfl

theorem alloc_chunks_ct_lookup_new (s : GFSState) (n : Nat) (i : Nat)
    (hfresh : ∀ p ∈ s.chunktable, p.1 < s.nextId)
    (hrobin : s.chunkrobin < s.num_chunkservers) (hi : i < n) :
    lookupA (s.nextId + i) (GFSMaster.alloc_chunks s n).2.chunktable
      = some ((s.chunkrobin + i) % s.num_chunkservers) := by
  rw [alloc_chunks_ct n s hfresh hrobin]
  rw [lookupA_append_second]
  · have h2 : ∀ m, i < m → lookupA (s.nextId + i)
        ((List.range m).map
          (fun j => (s.nextId + j, (s.chunkrobin + j) % s.num_chunkservers)))
        = some ((s.chunkrobin + i) % s.num_chunkservers) := by
      intro m
      induction m with
      | zero => intro h; exact absurd h (Nat.not_lt_zero _)
      | succ m ihm =>
        intro hm
        rw [List.range_succ, List.map_append]
        rcases Nat.lt_or_ge i m with h | h
        · exact lookupA_append_first _ _ _ (ihm h)
        · have him : i = m := by omega
          subst him
          rw [lookupA_append_second, List.map_cons, List.map_nil,
            lookupA, if_pos rfl]
          intro hmm
          obtain ⟨q, hq, hq1⟩ := List.mem_map.mp hmm
          obtain ⟨j, hj, hj1⟩ := List.mem_map.mp hq
          have hq2 : q.1 = s.nextId + j := by rw [← hj1]
          have : s.nextId + i = s.nextId + j := by rw [← hq1, hq2]
          simp only [List.mem_range] at hj
          omega
    exact h2 n hi
  · intro hm
    obtain ⟨p, hp, hp1⟩ := List.mem_map.mp hm
    have := hfresh p hp
    omega

/-! ### The well-formedness invariant -/

/-- Well-formed system states: positive pool and chunk size, cursor in range,
a server behind every in-range index, duplicate-free tables, allocated ids
below the uuid counter, and every file's ids backed by a placement entry. -/
structure WF (s : GFSState) : Prop where
  hN : 0 < s.num_chunkservers
  hCS : 0 < s.chunksize
  hrobin : s.chunkrobin < s.num_chunkservers
  hservers : ∀ l, l < s.num_chunkservers → (lookupA l s.chunkservers).isSome = true
  hft_nodup : (s.filetable.map Prod.fst).Nodup
  hct_nodup : (s.chunktable.map Prod.fst).Nodup
  hct_fresh : ∀ p ∈ s.chunktable, p.1 < s.nextId
  hft_fresh : ∀ f ids, lookupA f s.filetable = some ids → ∀ id ∈ ids, id < s.nextId
  hplace : ∀ f ids, lookupA f s.filetable = some ids → ∀ id ∈ ids,
    (lookupA id s.chunktable).isSome = true

theorem WF_initState : WF initState := by
  constructor
  · decide
  · decide
  · decide
  · decide
  · decide
  · decide
  · intro p hp; simp [initState] at hp
  · intro f ids h; simp [initState, lookupA] at h
  · intro f ids h; simp [initState, lookupA] at h

theorem alloc_chunks_ct_nodup (s : GFSState) (n : Nat)
    (hnd : (s.chunktable.map Prod.fst).Nodup)
    (hfresh : ∀ p ∈ s.chunktable, p.1 < s.nextId)
    (hrobin : s.chunkrobin < s.num_chunkservers) :
    ((GFSMaster.alloc_chunks s n).2.chunktable.map Prod.fst).Nodup := by
  rw [alloc_chunks_ct n s hfresh hrobin, List.map_append]
  refine List.Nodup.append hnd ?_ ?_
  · rw [List.map_map]
    have heq : (Prod.fst ∘ fun i =>
        (s.nextId + i, (s.chunkrobin + i) % s.num_chunkservers))
        = fun i => s.nextId + i := rfl
    rw [heq]
    exact (List.nodup_range n).map (fun a b h => by omega)
  · intro a ha hb
    obtain ⟨p, hp, hp1⟩ := List.mem_map.mp ha
    simp only [List.map_map, List.mem_map, List.mem_range,
      Function.comp_apply] at hb
    obtain ⟨i, hi, hi1⟩ := hb
    have := hfresh p hp
    omega

theorem alloc_chunks_fresh (s : GFSState) (n : Nat)
    (hfresh : ∀ p ∈ s.chunktable, p.1 < s.nextId)
    (hrobin : s.chunkrobin < s.num_chunkservers) :
    ∀ p ∈ (GFSMaster.alloc_chunks s n).2.chunktable, p.1 < s.nextId + n := by
  rw [alloc_chunks_ct n s hfresh hrobin]
  intro p hp
  rcases List.mem_append.mp hp with hp | hp
  · exact Nat.lt_of_lt_of_le (hfresh p hp) (Nat.le_add_right _ _)
  · obtain ⟨i, hi, hi1⟩ := List.mem_map.mp hp
    simp only [List.mem_range] at hi
    rw [← hi1]
    simpa using hi

/-- The record produced by `GFSMaster.alloc`. -/
theorem alloc_proj (s : GFSState) (f : String) (n : Nat) :
    (GFSMaster.alloc s f n).2
      = { (GFSMaster.alloc_chunks s n).2 with
          filetable := insertA (GFSMaster.alloc_chunks s n).2.filetable f
            (GFSMaster.alloc_chunks s n).1 } := rfl

theorem alloc_ids (s : GFSState) (f : String) (n : Nat) :
    (GFSMaster.alloc s f n).1 = (GFSMaster.alloc_chunks s n).1 := rfl

theorem mem_range'_bound {m n id : Nat} (h : id ∈ List.range' m n) :
    m ≤ id ∧ id < m + n := List.mem_range'_1.mp h

theorem WF_alloc (s : GFSState) (f : String) (n : Nat) (hWF : WF s) :
    WF (GFSMaster.alloc s f n).2 := by
  obtain ⟨hN, hCS, hrobin, hservers, hft_nodup, hct_nodup, hct_fresh,
    hft_fresh, hplace⟩ := hWF
  obtain ⟨h1, h2, h3, h4, h5, h6, h7⟩ := alloc_chunks_fields n s
  rw [alloc_proj]
  constructor
  case hN => simpa only [h1] using hN
  case hCS => simpa only [h2] using hCS
  case hrobin =>
    simp only [h1, alloc_chunks_robin n s hrobin]
    exact Nat.mod_lt _ hN
  case hservers =>
    simp only [h1, h4]
    exact hservers
  case hft_nodup =>
    simp only [h3]
    exact keys_insertA_nodup _ _ _ hft_nodup
  case hct_nodup =>
    exact alloc_chunks_ct_nodup s n hct_nodup hct_fresh hrobin
  case hct_fresh =>
    simp only [h6]
    exact alloc_chunks_fresh s n hct_fresh hrobin
  case hft_fresh =>
    simp only [h3, h6, h7]
    intro g ids hg id hid
    rw [lookupA_insertA] at hg
    by_cases hgf : g = f
    · rw [if_pos hgf] at hg
      injection hg with hg
      subst hg
      have := (mem_range'_bound hid).2
      omega
    · rw [if_neg hgf] at hg
      exact Nat.lt_of_lt_of_le (hft_fresh g ids hg id hid) (Nat.le_add_right _ _)
  case hplace =>
    simp only [h3, h7]
    intro g ids hg id hid
    rw [lookupA_insertA] at hg
    by_cases hgf : g = f
    · rw [if_pos hgf] at hg
      injection hg with hg
      subst hg
      obtain ⟨hlo, hhi⟩ := mem_range'_bound hid
      have hid' : id = s.nextId + (id - s.nextId) := by omega
      rw [hid', alloc_chunks_ct_lookup_new s n _ hct_fresh hrobin (by omega)]
      rfl
    · rw [if_neg hgf] at hg
      have hb := hft_fresh g ids hg id hid
      rw [alloc_chunks_ct_lookup_old s n id hct_fresh hrobin hb]
      exact hplace g ids hg id hid

/-- The successful case of `GFSMaster.alloc_append`. -/
theorem alloc_append_ok (s : GFSState) (f : String) (n : Nat) (ids0 : List Nat)
    (h : lookupA f s.filetable = some ids0) :
    GFSMaster.alloc_append s f n
      = .ok ((GFSMaster.alloc_chunks s n).1,
          { (GFSMaster.alloc_chunks s n).2 with
            filetable := insertA (GFSMaster.alloc_chunks s n).2.filetable f
              (ids0 ++ (GFSMaster.alloc_chunks s n).1) }) := by
  unfold GFSMaster.alloc_append
  rw [h]

theorem WF_alloc_append (s : GFSState) (f : String) (n : Nat)
    (ids0 : List Nat) (hWF : WF s)
    (h : lookupA f s.filetable = some ids0) :
    WF { (GFSMaster.alloc_chunks s n).2 with
         filetable := insertA (GFSMaster.alloc_chunks s n).2.filetable f
           (ids0 ++ (GFSMaster.alloc_chunks s n).1) } := by
  obtain ⟨hN, hCS, hrobin, hservers, hft_nodup, hct_nodup, hct_fresh,
    hft_fresh, hplace⟩ := hWF
  obtain ⟨h1, h2, h3, h4, h5, h6, h7⟩ := alloc_chunks_fields n s
  constructor
  case hN => simpa only [h1] using hN
  case hCS => simpa only [h2] using hCS
  case hrobin =>
    simp only [h1, alloc_chunks_robin n s hrobin]
    exact Nat.mod_lt _ hN
  case hservers =>
    simp only [h1, h4]
    exact hservers
  case hft_nodup =>
    simp only [h3]
    exact keys_insertA_nodup _ _ _ hft_nodup
  case hct_nodup =>
    exact alloc_chunks_ct_nodup s n hct_nodup hct_fresh hrobin
  case hct_fresh =>
    simp only [h6]
    exact alloc_chunks_fresh s n hct_fresh hrobin
  case hft_fresh =>
    simp only [h3, h6, h7]
    intro g ids hg id hid
    rw [lookupA_insertA] at hg
    by_cases hgf : g = f
    · rw [if_pos hgf] at hg
      injection hg with hg
      subst hg
      rcases List.mem_append.mp hid with hid | hid
      · exact Nat.lt_of_lt_of_le (hft_fresh f ids0 h id hid)
          (Nat.le_add_right _ _)
      · have := (mem_range'_bound hid).2
        omega
    · rw [if_neg hgf] at hg
      exact Nat.lt_of_lt_of_le (hft_fresh g ids hg id hid) (Nat.le_add_right _ _)
  case hplace =>
    simp only [h3, h7]
    intro g ids hg id hid
    rw [lookupA_insertA] at hg
    by_cases hgf : g = f
    · rw [if_pos hgf] at hg
      injection hg with hg
      subst hg
      rcases List.mem_append.mp hid with hid | hid
      · have hb := hft_fresh f ids0 h id hid
        rw [alloc_chunks_ct_lookup_old s n id hct_fresh hrobin hb]
        exact hplace f ids0 h id hid
      · obtain ⟨hlo, hhi⟩ := mem_range'_bound hid
        have hid' : id = s.nextId + (id - s.nextId) := by omega
        rw [hid', alloc_chunks_ct_lookup_new s n _ hct_fresh hrobin (by omega)]
        rfl
    · rw [if_neg hgf] at hg
      have hb := hft_fresh g ids hg id hid
      rw [alloc_chunks_ct_lookup_old s n id hct_fresh hrobin hb]
      exact hplace g ids hg id hid

/-! ### Behaviour of `delete` -/

theorem deleted_filename_ne (s : GFSState) (f : String) :
    GFSMaster.deleted_filename s f ≠ f := by
  intro h
  have hlen := congrArg String.length h
  rw [GFSMaster.deleted_filename, String.length_append, String.length_append] at hlen
  have h16 : ("/hidden/deleted/" : String).length = 16 := rfl
  omega

/-- The successful case of `GFSMaster.delete`. -/
theorem delete_ok (s : GFSState) (f : String) (ids : List Nat)
    (h : lookupA f s.filetable = some ids) :
    GFSMaster.delete s f
      = .ok { s with
              filetable := insertA (eraseA s.filetable f)
                (GFSMaster.deleted_filename s f) ids
              clock := s.clock + 1 } := by
  unfold GFSMaster.delete
  rw [h]

theorem delete_ft_lookup (s : GFSState) (f : String) (ids : List Nat)
    (hnd : (s.filetable.map Prod.fst).Nodup)
    (h : lookupA f s.filetable = some ids) :
    ∀ g ids', lookupA g (insertA (eraseA s.filetable f)
        (GFSMaster.deleted_filename s f) ids) = some ids' →
      (g = GFSMaster.deleted_filename s f ∧ ids' = ids) ∨
      (g ≠ f ∧ lookupA g s.filetable = some ids') := by
  intro g ids' hg
  rw [lookupA_insertA] at hg
  by_cases hgd : g = GFSMaster.deleted_filename s f
  · rw [if_pos hgd] at hg
    injection hg with hg
    exact Or.inl ⟨hgd, hg.symm⟩
  · rw [if_neg hgd] at hg
    by_cases hgf : g = f
    · subst hgf
      rw [lookupA_eraseA_self _ _ hnd] at hg
      exact absurd hg (by simp)
    · rw [lookupA_eraseA_ne _ hgf] at hg
      exact Or.inr ⟨hgf, hg⟩

theorem delete_ft_lookup_deleted (s : GFSState) (f : String) (ids : List Nat) :
    lookupA (GFSMaster.deleted_filename s f)
      (insertA (eraseA s.filetable f) (GFSMaster.deleted_filename s f) ids)
      = some ids :=
  lookupA_insertA_self _ _ _

theorem delete_ft_lookup_self (s : GFSState) (f : String) (ids : List Nat)
    (hnd : (s.filetable.map Prod.fst).Nodup) :
    lookupA f (insertA (eraseA s.filetable f)
      (GFSMaster.deleted_filename s f) ids) = none := by
  rw [lookupA_insertA_ne _ _ (fun h => deleted_filename_ne s f h.symm),
    lookupA_eraseA_self _ _ hnd]

theorem WF_delete (s : GFSState) (f : String) (ids : List Nat) (hWF : WF s)
    (h : lookupA f s.filetable = some ids) :
    WF { s with
         filetable := insertA (eraseA s.filetable f)
           (GFSMaster.deleted_filename s f) ids
         clock := s.clock + 1 } := by
  obtain ⟨hN, hCS, hrobin, hservers, hft_nodup, hct_nodup, hct_fresh,
    hft_fresh, hplace⟩ := hWF
  constructor
  case hN => exact hN
  case hCS => exact hCS
  case hrobin => exact hrobin
  case hservers => exact hservers
  case hft_nodup =>
    exact keys_insertA_nodup _ _ _ (keys_eraseA_nodup _ _ hft_nodup)
  case hct_nodup => exact hct_nodup
  case hct_fresh => exact hct_fresh
  case hft_fresh =>
    intro g ids' hg id hid
    rcases delete_ft_lookup s f ids hft_nodup h g ids' hg with ⟨_, hh⟩ | ⟨_, hh⟩
    · exact hft_fresh f ids h id (hh ▸ hid)
    · exact hft_fresh g ids' hh id hid
  case hplace =>
    intro g ids' hg id hid
    rcases delete_ft_lookup s f ids hft_nodup h g ids' hg with ⟨_, hh⟩ | ⟨_, hh⟩
    · exact hplace f ids h id (hh ▸ hid)
    · exact hplace g ids' hh id hid

/-! ### Behaviour of `write_chunks` -/

theorem serverData_write_self (s : GFSState) (loc id : Nat)
    (srv : List (Nat × Bytes)) (c : Bytes)
    (_hsrvs : lookupA loc s.chunkservers = some srv) :
    serverData { s with chunkservers := (insertA s.chunkservers loc (GFSChunkserver.write srv id c)) } loc id = some c := by
  unfold serverData GFSChunkserver.write
  rw [lookupA_insertA_self]
  simp only [Option.some_bind]
  exact lookupA_insertA_self _ _ _

theorem serverData_write_other (s : GFSState) (loc id : Nat)
    (srv : List (Nat × Bytes)) (c : Bytes)
    (hsrvs : lookupA loc s.chunkservers = some srv) (l id2 : Nat)
    (hne : id2 ≠ id) :
    serverData { s with chunkservers := (insertA s.chunkservers loc (GFSChunkserver.write srv id c)) } l id2 = serverData s l id2 := by
  unfold serverData GFSChunkserver.write
  by_cases hl : l = loc
  · subst hl
    rw [lookupA_insertA_self, hsrvs]
    simp only [Option.some_bind]
    exact lookupA_insertA_ne _ _ hne
  · rw [lookupA_insertA_ne _ _ hl]

theorem write_chunks_loop_spec :
    ∀ (ids : List Nat) (chunks : List Bytes) (s : GFSState),
    ids.length ≤ chunks.length →
    (∀ id ∈ ids, ∃ loc, lookupA id s.chunktable = some loc ∧
        (lookupA loc s.chunkservers).isSome = true) →
    ∃ s', GFSClient.write_chunks_loop s ids chunks = .ok s' ∧
      s'.num_chunkservers = s.num_chunkservers ∧
      s'.chunksize = s.chunksize ∧
      s'.chunkrobin = s.chunkrobin ∧
      s'.filetable = s.filetable ∧
      s'.chunktable = s.chunktable ∧
      s'.nextId = s.nextId ∧
      s'.clock = s.clock ∧
      s'.chunkservers.map Prod.fst = s.chunkservers.map Prod.fst ∧
      (∀ l id, id ∉ ids → serverData s' l id = serverData s l id) ∧
      (ids.Nodup → List.Forall₂ (StoredAt s') ids (chunks.take ids.length)) := by
  intro ids
  induction ids with
  | nil =>
    intro chunks s _ _
    refine ⟨s, rfl, rfl, rfl, rfl, rfl, rfl, rfl, rfl, rfl, ?_, ?_⟩
    · intro l id _; rfl
    · intro _
      simp only [List.length_nil, List.take_zero]
      exact List.Forall₂.nil
  | cons id ids ih =>
    intro chunks s hlen hloc
    match chunks with
    | [] => simp at hlen
    | c :: rest =>
      obtain ⟨loc, hct, hsrv⟩ := hloc id (List.mem_cons_self _ _)
      obtain ⟨srv, hsrvs⟩ := Option.isSome_iff_exists.mp hsrv
      have hgl : GFSMaster.get_chunkloc s id = .ok loc := by
        unfold GFSMaster.get_chunkloc
        rw [hct]
      have hkeys0 : (insertA s.chunkservers loc (GFSChunkserver.write srv id c)).map Prod.fst = s.chunkservers.map Prod.fst :=
        keys_insertA_mem _ _ _
          (keys_of_lookupA_isSome _ _ (by rw [hsrvs]; rfl))
      have hlen2 : ids.length ≤ rest.length := by
        simp only [List.length_cons] at hlen
        omega
      have hloc2 : ∀ id2 ∈ ids, ∃ loc2,
          lookupA id2 ({ s with chunkservers := (insertA s.chunkservers loc (GFSChunkserver.write srv id c)) } : GFSState).chunktable = some loc2 ∧
          (lookupA loc2 ({ s with chunkservers := (insertA s.chunkservers loc (GFSChunkserver.write srv id c)) } : GFSState).chunkservers).isSome = true := by
        intro id2 hid2
        obtain ⟨loc2, hct2, hsrv2⟩ := hloc id2 (List.mem_cons_of_mem _ hid2)
        refine ⟨loc2, hct2, ?_⟩
        exact lookupA_isSome_of_keys _ _
          (hkeys0 ▸ keys_of_lookupA_isSome _ _ hsrv2)
      obtain ⟨s', hok, h1, h2, h3, h4, h5, h6, h7, h8, hpres, hforall⟩ :=
        ih rest
          { s with chunkservers := (insertA s.chunkservers loc (GFSChunkserver.write srv id c)) }
          hlen2 hloc2
      refine ⟨s', ?_, h1, h2, h3, h4, h5, h6, h7, by rw [h8]; exact hkeys0,
        ?_, ?_⟩
      · simp only [GFSClient.write_chunks_loop, hgl, hsrvs]
        exact hok
      · intro l id2 hid2
        simp only [List.mem_cons, not_or] at hid2
        rw [hpres l id2 hid2.2]
        exact serverData_write_other s loc id srv c hsrvs l id2 hid2.1
      · intro hnd
        simp only [List.nodup_cons] at hnd
        simp only [List.length_cons, List.take_succ_cons]
        refine List.Forall₂.cons ?_ (hforall hnd.2)
        refine ⟨loc, by rw [h5]; exact hct, ?_⟩
        rw [hpres loc id hnd.1]
        exact serverData_write_self s loc id srv c hsrvs

/-! ### Behaviour of `read` -/

theorem read_loop_spec (s : GFSState) :
    ∀ {ids : List Nat} {chunks : List Bytes},
    List.Forall₂ (StoredAt s) ids chunks →
    GFSClient.read_loop s ids = .ok chunks := by
  intro ids chunks h
  induction h with
  | nil => rfl
  | cons hhead htail ih =>
    rename_i id c ids2 chunks2
    obtain ⟨loc, hct, hdata⟩ := hhead
    have hgl : GFSMaster.get_chunkloc s id = .ok loc := by
      unfold GFSMaster.get_chunkloc
      rw [hct]
    obtain ⟨srv, hsrvs, hchunk⟩ : ∃ srv, lookupA loc s.chunkservers = some srv ∧
        lookupA id srv = some c := by
      unfold serverData at hdata
      rcases hss : lookupA loc s.chunkservers with _ | srv
      · rw [hss] at hdata
        simp at hdata
      · rw [hss] at hdata
        simp only [Option.some_bind] at hdata
        exact ⟨srv, rfl, hdata⟩
    simp only [GFSClient.read_loop, hgl, hsrvs, GFSChunkserver.read, hchunk, ih]

theorem foldl_append_flatten (rest : List Bytes) : ∀ c : Bytes,
    rest.foldl (fun x y => x ++ y) c = c ++ rest.flatten := by
  induction rest with
  | nil => intro c; simp
  | cons r rest ih =>
    intro c
    rw [List.foldl_cons, ih (c ++ r), List.flatten_cons, List.append_assoc]

theorem reduce_concat_flatten (chunks : List Bytes) (hne : chunks ≠ []) :
    GFSClient.reduce_concat chunks = .ok chunks.flatten := by
  match chunks with
  | [] => exact absurd rfl hne
  | c :: rest =>
    simp only [GFSClient.reduce_concat]
    rw [List.flatten_cons, foldl_append_flatten rest c]

/-- Reassembly: if the file's chunk ids are each stored with the matching
payload, `read` returns their in-order concatenation. -/
theorem read_ok (s : GFSState) (f : String) (ids : List Nat)
    (chunks : List Bytes) (hft : lookupA f s.filetable = some ids)
    (hstored : List.Forall₂ (StoredAt s) ids chunks) (hne : chunks ≠ []) :
    GFSClient.read s f = .ok chunks.flatten := by
  have hex : GFSClient.exists' s f = true := by
    unfold GFSClient.exists' GFSMaster.exists'
    rw [hft]
    rfl
  have hgu : GFSMaster.get_chunkuuids s f = .ok ids := by
    unfold GFSMaster.get_chunkuuids
    rw [hft]
  simp only [GFSClient.read, hex, if_true, hgu, read_loop_spec s hstored,
    reduce_concat_flatten chunks hne]

/-- Transport `StoredAt` facts along an operation that does not disturb
placements or stored payloads below a bound. -/
theorem StoredAt_mono (s s2 : GFSState) (bound : Nat)
    {ids : List Nat} {chunks : List Bytes}
    (hids : ∀ id ∈ ids, id < bound)
    (hct : ∀ id, id < bound → lookupA id s2.chunktable = lookupA id s.chunktable)
    (hsv : ∀ l id, id < bound → serverData s2 l id = serverData s l id)
    (h : List.Forall₂ (StoredAt s) ids chunks) :
    List.Forall₂ (StoredAt s2) ids chunks := by
  induction h with
  | nil => exact List.Forall₂.nil
  | cons hhead htail ih =>
    rename_i id c ids2 chunks2
    have hb : id < bound := hids id (List.mem_cons_self _ _)
    obtain ⟨loc, hc, hd⟩ := hhead
    refine List.Forall₂.cons ⟨loc, ?_, ?_⟩
      (ih (fun id2 h2 => hids id2 (List.mem_cons_of_mem _ h2)))
    · rw [hct id hb]
      exact hc
    · rw [hsv loc id hb]
      exact hd

/-! ### The end-to-end write path -/

theorem WF_transfer (s2 s' : GFSState) (hWF : WF s2)
    (h1 : s'.num_chunkservers = s2.num_chunkservers)
    (h2 : s'.chunksize = s2.chunksize)
    (h3 : s'.chunkrobin = s2.chunkrobin)
    (h4 : s'.filetable = s2.filetable)
    (h5 : s'.chunktable = s2.chunktable)
    (h6 : s'.nextId = s2.nextId)
    (hkeys : s'.chunkservers.map Prod.fst = s2.chunkservers.map Prod.fst) :
    WF s' := by
  obtain ⟨hN, hCS, hrobin, hservers, hft_nodup, hct_nodup, hct_fresh,
    hft_fresh, hplace⟩ := hWF
  constructor
  case hN => rw [h1]; exact hN
  case hCS => rw [h2]; exact hCS
  case hrobin => rw [h1, h3]; exact hrobin
  case hservers =>
    intro l hl
    rw [h1] at hl
    exact lookupA_isSome_of_keys _ _
      (hkeys ▸ keys_of_lookupA_isSome _ _ (hservers l hl))
  case hft_nodup => rw [h4]; exact hft_nodup
  case hct_nodup => rw [h5]; exact hct_nodup
  case hct_fresh => rw [h5, h6]; exact hct_fresh
  case hft_fresh => rw [h4, h6]; exact hft_fresh
  case hplace => rw [h4, h5]; exact hplace

theorem alloc_write_chunks_spec (s : GFSState) (f : String) (d : Bytes)
    (hWF : WF s) :
    ∃ s', GFSClient.write_chunks
        (GFSMaster.alloc s f (GFSClient.num_chunks s d.length)).2
        (GFSMaster.alloc s f (GFSClient.num_chunks s d.length)).1 d
        = .ok s' ∧
      WF s' ∧
      s'.chunksize = s.chunksize ∧
      s'.num_chunkservers = s.num_chunkservers ∧
      s'.nextId = s.nextId + GFSClient.num_chunks s d.length ∧
      s'.clock = s.clock ∧
      lookupA f s'.filetable
        = some (List.range' s.nextId (GFSClient.num_chunks s d.length)) ∧
      List.Forall₂ (StoredAt s')
        (List.range' s.nextId (GFSClient.num_chunks s d.length))
        (GFSClient.split_chunks s.chunksize d) ∧
      (∀ id, id < s.nextId →
        lookupA id s'.chunktable = lookupA id s.chunktable) ∧
      (∀ l id, id < s.nextId → serverData s' l id = serverData s l id) ∧
      (∀ g, g ≠ f → lookupA g s'.filetable = lookupA g s.filetable) := by
  obtain ⟨hN, hCS, hrobin, hservers, hft_nodup, hct_nodup, hct_fresh,
    hft_fresh, hplace⟩ := hWF
  obtain ⟨h1, h2, h3, h4, h5, h6, h7⟩ :=
    alloc_chunks_fields (GFSClient.num_chunks s d.length) s
  set n := GFSClient.num_chunks s d.length with hn
  set newIds := List.range' s.nextId n with hnew
  set s2 := (GFSMaster.alloc s f n).2 with hs2
  have hs2ft : s2.filetable = insertA s.filetable f newIds := by
    rw [hs2, alloc_proj, h3, h7]
  have hs2ct : s2.chunktable = (GFSMaster.alloc_chunks s n).2.chunktable := by
    rw [hs2, alloc_proj]
  have hs2sv : s2.chunkservers = s.chunkservers := by
    rw [hs2, alloc_proj]
    exact h4
  have hs2cs : s2.chunksize = s.chunksize := by rw [hs2, alloc_proj]; exact h2
  have hs2N : s2.num_chunkservers = s.num_chunkservers := by
    rw [hs2, alloc_proj]; exact h1
  have hs2nx : s2.nextId = s.nextId + n := by rw [hs2, alloc_proj]; exact h6
  have hs2ck : s2.clock = s.clock := by rw [hs2, alloc_proj]; exact h5
  have hids : (GFSMaster.alloc s f n).1 = newIds := by
    rw [alloc_ids, h7]
  have hWF2 : WF s2 := WF_alloc s f n
    ⟨hN, hCS, hrobin, hservers, hft_nodup, hct_nodup, hct_fresh,
      hft_fresh, hplace⟩
  have hsplit : GFSClient.split_chunks s2.chunksize d
      = GFSClient.split_chunks s.chunksize d := by rw [hs2cs]
  have hsplitlen : (GFSClient.split_chunks s.chunksize d).length = n :=
    split_chunks_length s hCS d
  have hidslen : newIds.length = n := by rw [hnew, List.length_range']
  have hloc : ∀ id ∈ newIds, ∃ loc, lookupA id s2.chunktable = some loc ∧
      (lookupA loc s2.chunkservers).isSome = true := by
    intro id hid
    obtain ⟨hlo, hhi⟩ := mem_range'_bound hid
    refine ⟨(s.chunkrobin + (id - s.nextId)) % s.num_chunkservers, ?_, ?_⟩
    · rw [hs2ct]
      have hid' : id = s.nextId + (id - s.nextId) := by omega
      conv in lookupA id _ => rw [hid']
      exact alloc_chunks_ct_lookup_new s n _ hct_fresh hrobin (by omega)
    · rw [hs2sv]
      exact hservers _ (Nat.mod_lt _ hN)
  obtain ⟨s', hok, g1, g2, g3, g4, g5, g6, g7, g8, hpres, hforall⟩ :=
    write_chunks_loop_spec newIds (GFSClient.split_chunks s.chunksize d) s2
      (by rw [hidslen, hsplitlen]) hloc
  have hforall2 : List.Forall₂ (StoredAt s') newIds
      (GFSClient.split_chunks s.chunksize d) := by
    have hnd : newIds.Nodup := by rw [hnew]; exact List.nodup_range' _ _
    have := hforall hnd
    rwa [hidslen, ← hsplitlen, List.take_length] at this
  refine ⟨s', ?_, ?_, ?_, ?_, ?_, ?_, ?_, hforall2, ?_, ?_, ?_⟩
  · show GFSClient.write_chunks s2 (GFSMaster.alloc s f n).1 d = .ok s'
    rw [hids]
    unfold GFSClient.write_chunks
    rw [hsplit]
    exact hok
  · exact WF_transfer s2 s' hWF2 g1 g2 g3 g4 g5 g6 g8
  · rw [g2, hs2cs]
  · rw [g1, hs2N]
  · rw [g6, hs2nx]
  · rw [g7, hs2ck]
  · rw [g4, hs2ft]
    exact lookupA_insertA_self _ _ _
  · intro id hid
    rw [g5, hs2ct]
    exact alloc_chunks_ct_lookup_old s n id hct_fresh hrobin hid
  · intro l id hid
    have hnm : id ∉ newIds := by
      intro hm
      have := (mem_range'_bound hm).1
      omega
    rw [hpres l id hnm]
    unfold serverData
    rw [hs2sv]
  · intro g hg
    rw [g4, hs2ft]
    exact lookupA_insertA_ne _ _ hg

theorem write_spec (s : GFSState) (f : String) (d : Bytes) (hWF : WF s) :
    ∃ s', GFSClient.write s f d = .ok s' ∧ WF s' ∧
      s'.chunksize = s.chunksize ∧
      s'.num_chunkservers = s.num_chunkservers ∧
      s'.nextId = s.nextId + GFSClient.num_chunks s d.length ∧
      lookupA f s'.filetable
        = some (List.range' s.nextId (GFSClient.num_chunks s d.length)) ∧
      List.Forall₂ (StoredAt s')
        (List.range' s.nextId (GFSClient.num_chunks s d.length))
        (GFSClient.split_chunks s.chunksize d) ∧
      (∀ id, id < s.nextId →
        lookupA id s'.chunktable = lookupA id s.chunktable) ∧
      (∀ l id, id < s.nextId → serverData s' l id = serverData s l id) ∧
      (∀ g ids', lookupA g s'.filetable = some ids' →
        (g = f ∧ ids' = List.range' s.nextId (GFSClient.num_chunks s d.length)) ∨
        (g ≠ f ∧ lookupA g s.filetable = some ids') ∨
        (g = GFSMaster.deleted_filename s f ∧
          lookupA f s.filetable = some ids')) ∧
      (∀ ids0, lookupA f s.filetable = some ids0 →
        lookupA (GFSMaster.deleted_filename s f) s'.filetable = some ids0) := by
  cases hex : GFSClient.exists' s f with
  | false =>
    have hnone : lookupA f s.filetable = none := by
      cases hlk : lookupA f s.filetable with
      | none => rfl
      | some v =>
        exfalso
        have hh : GFSClient.exists' s f = true := by
          unfold GFSClient.exists' GFSMaster.exists'
          rw [hlk]
          rfl
        rw [hex] at hh
        exact Bool.false_ne_true hh
    obtain ⟨s', hok, hWF', hcs, hN, hnx, hck, hft, hstored, hct, hsv, hother⟩ :=
      alloc_write_chunks_spec s f d hWF
    refine ⟨s', ?_, hWF', hcs, hN, hnx, hft, hstored, hct, hsv, ?_, ?_⟩
    · simp only [GFSClient.write, hex, Bool.false_eq_true, if_false]
      exact hok
    · intro g ids' hg
      by_cases hgf : g = f
      · subst hgf
        rw [hft] at hg
        injection hg with hg
        exact Or.inl ⟨rfl, hg.symm⟩
      · rw [hother g hgf] at hg
        exact Or.inr (Or.inl ⟨hgf, hg⟩)
    · intro ids0 h0
      rw [hnone] at h0
      exact absurd h0 (by simp)
  | true =>
    have hsome : (lookupA f s.filetable).isSome = true := by
      have hh := hex
      unfold GFSClient.exists' GFSMaster.exists' at hh
      exact hh
    obtain ⟨ids0, hids0⟩ := Option.isSome_iff_exists.mp hsome
    have hdel := delete_ok s f ids0 hids0
    have hWFD := WF_delete s f ids0 hWF hids0
    obtain ⟨s', hok, hWF', hcs, hN, hnx, hck, hft, hstored, hct, hsv, hother⟩ :=
      alloc_write_chunks_spec
        { s with
          filetable := insertA (eraseA s.filetable f)
            (GFSMaster.deleted_filename s f) ids0
          clock := s.clock + 1 }
        f d hWFD
    refine ⟨s', ?_, hWF', hcs, hN, hnx, hft, hstored, hct, hsv, ?_, ?_⟩
    · simp only [GFSClient.write, hex, if_true, hdel]
      exact hok
    · intro g ids' hg
      by_cases hgf : g = f
      · subst hgf
        rw [hft] at hg
        injection hg with hg
        exact Or.inl ⟨rfl, hg.symm⟩
      · rw [hother g hgf] at hg
        rcases delete_ft_lookup s f ids0 hWF.hft_nodup hids0 g ids' hg with
          ⟨hgd, hh⟩ | ⟨hgf2, hh⟩
        · subst hh
          exact Or.inr (Or.inr ⟨hgd, hids0⟩)
        · exact Or.inr (Or.inl ⟨hgf2, hh⟩)
    · intro ids1 h1
      rw [hids0] at h1
      injection h1 with h1
      rw [hother _ (deleted_filename_ne s f), ← h1]
      exact delete_ft_lookup_deleted s f ids0

theorem append_spec (s : GFSState) (f : String) (d : Bytes) (ids0 : List Nat)
    (hWF : WF s) (hft0 : lookupA f s.filetable = some ids0) :
    ∃ s', GFSClient.write_append s f d = .ok s' ∧ WF s' ∧
      s'.chunksize = s.chunksize ∧
      s'.num_chunkservers = s.num_chunkservers ∧
      s'.nextId = s.nextId + GFSClient.num_chunks s d.length ∧
      lookupA f s'.filetable
        = some (ids0 ++ List.range' s.nextId (GFSClient.num_chunks s d.length)) ∧
      List.Forall₂ (StoredAt s')
        (List.range' s.nextId (GFSClient.num_chunks s d.length))
        (GFSClient.split_chunks s.chunksize d) ∧
      (∀ id, id < s.nextId →
        lookupA id s'.chunktable = lookupA id s.chunktable) ∧
      (∀ l id, id < s.nextId → serverData s' l id = serverData s l id) := by
  obtain ⟨hN, hCS, hrobin, hservers, hft_nodup, hct_nodup, hct_fresh,
    hft_fresh, hplace⟩ := hWF
  obtain ⟨h1, h2, h3, h4, h5, h6, h7⟩ :=
    alloc_chunks_fields (GFSClient.num_chunks s d.length) s
  set n := GFSClient.num_chunks s d.length with hn
  set newIds := List.range' s.nextId n with hnew
  set s2 : GFSState :=
    { (GFSMaster.alloc_chunks s n).2 with
      filetable := insertA (GFSMaster.alloc_chunks s n).2.filetable f
        (ids0 ++ (GFSMaster.alloc_chunks s n).1) } with hs2
  have hex : GFSClient.exists' s f = true := by
    unfold GFSClient.exists' GFSMaster.exists'
    rw [hft0]
    rfl
  have halloc := alloc_append_ok s f n ids0 hft0
  have hs2ft : s2.filetable = insertA s.filetable f (ids0 ++ newIds) := by
    rw [hs2, h3, h7]
  have hs2ct : s2.chunktable = (GFSMaster.alloc_chunks s n).2.chunktable := by
    rw [hs2]
  have hs2sv : s2.chunkservers = s.chunkservers := by rw [hs2]; exact h4
  have hs2cs : s2.chunksize = s.chunksize := by rw [hs2]; exact h2
  have hs2N : s2.num_chunkservers = s.num_chunkservers := by rw [hs2]; exact h1
  have hs2nx : s2.nextId = s.nextId + n := by rw [hs2]; exact h6
  have hWF2 : WF s2 := WF_alloc_append s f n ids0
    ⟨hN, hCS, hrobin, hservers, hft_nodup, hct_nodup, hct_fresh,
      hft_fresh, hplace⟩ hft0
  have hsplit : GFSClient.split_chunks s2.chunksize d
      = GFSClient.split_chunks s.chunksize d := by rw [hs2cs]
  have hsplitlen : (GFSClient.split_chunks s.chunksize d).length = n :=
    split_chunks_length s hCS d
  have hidslen : newIds.length = n := by rw [hnew, List.length_range']
  have hloc : ∀ id ∈ newIds, ∃ loc, lookupA id s2.chunktable = some loc ∧
      (lookupA loc s2.chunkservers).isSome = true := by
    intro id hid
    obtain ⟨hlo, hhi⟩ := mem_range'_bound hid
    refine ⟨(s.chunkrobin + (id - s.nextId)) % s.num_chunkservers, ?_, ?_⟩
    · rw [hs2ct]
      have hid' : id = s.nextId + (id - s.nextId) := by omega
      conv in lookupA id _ => rw [hid']
      exact alloc_chunks_ct_lookup_new s n _ hct_fresh hrobin (by omega)
    · rw [hs2sv]
      exact hservers _ (Nat.mod_lt _ hN)
  obtain ⟨s', hok, g1, g2, g3, g4, g5, g6, g7, g8, hpres, hforall⟩ :=
    write_chunks_loop_spec newIds (GFSClient.split_chunks s.chunksize d) s2
      (by rw [hidslen, hsplitlen]) hloc
  have hforall2 : List.Forall₂ (StoredAt s') newIds
      (GFSClient.split_chunks s.chunksize d) := by
    have hnd : newIds.Nodup := by rw [hnew]; exact List.nodup_range' _ _
    have hh := hforall hnd
    rwa [hidslen, ← hsplitlen, List.take_length] at hh
  refine ⟨s', ?_, ?_, ?_, ?_, ?_, ?_, hforall2, ?_, ?_⟩
  · simp only [GFSClient.write_append, hex, if_true, halloc]
    show GFSClient.write_chunks s2 (GFSMaster.alloc_chunks s n).1 d = .ok s'
    rw [h7]
    unfold GFSClient.write_chunks
    rw [hsplit]
    exact hok
  · exact WF_transfer s2 s' hWF2 g1 g2 g3 g4 g5 g6 g8
  · rw [g2, hs2cs]
  · rw [g1, hs2N]
  · rw [g6, hs2nx]
  · rw [g4, hs2ft]
    exact lookupA_insertA_self _ _ _
  · intro id hid
    rw [g5, hs2ct]
    exact alloc_chunks_ct_lookup_old s n id hct_fresh hrobin hid
  · intro l id hid
    have hnm : id ∉ newIds := by
      intro hm
      have := (mem_range'_bound hm).1
      omega
    rw [hpres l id hnm]
    unfold serverData
    rw [hs2sv]

/-! ### Concrete states for witnesses and counterexamples -/

deriving instance DecidableEq for Except

/-- The state after `write("f", "")` from the initial state: a live entry
with an empty chunk sequence and nothing else changed. -/
def emptyWriteState : GFSState :=
  { initState with filetable := [("f", [])] }

theorem WF_emptyWriteState : WF emptyWriteState := by
  constructor
  · decide
  · decide
  · decide
  · decide
  · decide
  · decide
  · intro p hp
    simp [emptyWriteState, initState] at hp
  · intro g ids h id hid
    by_cases hg : g = "f"
    · subst hg
      have h0 : lookupA "f" emptyWriteState.filetable = some [] := rfl
      rw [h0] at h
      injection h with h
      rw [← h] at hid
      exact absurd hid (List.not_mem_nil id)
    · have h0 : lookupA g emptyWriteState.filetable = none := by
        show lookupA g [("f", [])] = none
        rw [lookupA, if_neg hg]
        rfl
      rw [h0] at h
      exact absurd h (by simp)
  · intro g ids h id hid
    by_cases hg : g = "f"
    · subst hg
      have h0 : lookupA "f" emptyWriteState.filetable = some [] := rfl
      rw [h0] at h
      injection h with h
      rw [← h] at hid
      exact absurd hid (List.not_mem_nil id)
    · have h0 : lookupA g emptyWriteState.filetable = none := by
        show lookupA g [("f", [])] = none
        rw [lookupA, if_neg hg]
        rfl
      rw [h0] at h
      exact absurd h (by simp)

/-- The state after `write("f", [1])` from the initial state. -/
def oneByteState : GFSState :=
  { initState with
    filetable := [("f", [0])]
    chunktable := [(0, 0)]
    chunkservers := [(0, [(0, [1])]), (1, []), (2, []), (3, []), (4, [])]
    chunkrobin := 1
    nextId := 1 }

/-- The state after overwriting `"f"` with the empty payload from
`oneByteState`: the old id sequence survives only under the renamed key. -/
def overwrittenState : GFSState :=
  { oneByteState with
    filetable := [("/hidden/deleted/0f", [0]), ("f", [])]
    clock := 1 }

/-! ### The claims -/

/-- C4: for every byte length `L` and positive configured chunk size, the
chunk-count computation returns `ceil(L / C)` — written `(L + C - 1) / C` in
natural-number arithmetic, which agrees with `floor(L/C)` plus one exactly
when `L mod C` is nonzero — and returns `0` when `L = 0`. -/
theorem C4_num_chunks_is_ceil (s : GFSState) (L : Nat)
    (hCS : 0 < s.chunksize) :
    GFSClient.num_chunks s L = (L + s.chunksize - 1) / s.chunksize ∧
    GFSClient.num_chunks s 0 = 0 :=
  ⟨num_chunks_eq_ceil s L hCS, num_chunks_zero s⟩

theorem C4_num_chunks_is_ceil_witness :
    0 < initState.chunksize ∧
    (GFSClient.num_chunks initState 37
        = (37 + initState.chunksize - 1) / initState.chunksize ∧
      GFSClient.num_chunks initState 0 = 0) :=
  ⟨by decide, C4_num_chunks_is_ceil initState 37 (by decide)⟩

/-- C7: `write_append` on a file that does not exist fails with the
append-specific error carrying the file name, and returns no new state, so
no allocation happens: the file table, chunk table and cursor are those of
the input state, which is untouched. -/
theorem C7_append_missing (s : GFSState) (f : String) (d : Bytes)
    (h : GFSClient.exists' s f = false) :
    GFSClient.write_append s f d = .error (.appendError f) := by
  simp only [GFSClient.write_append, h, Bool.false_eq_true, if_false]

theorem C7_append_missing_witness :
    GFSClient.exists' initState "g" = false ∧
    GFSClient.write_append initState "g" [1, 2, 3]
      = .error (.appendError "g") :=
  ⟨by decide, C7_append_missing initState "g" [1, 2, 3] (by decide)⟩

/-- C10: writing the empty payload creates a live entry with an empty chunk
sequence — `exists` then answers `true` — but reading it back does not
produce the empty byte string: the `reduce`-based reassembly fails on the
empty chunk list with a `TypeError`. -/
theorem C10_empty_write_then_read_fails (s : GFSState) (f : String)
    (hWF : WF s) :
    ∃ s', GFSClient.write s f [] = .ok s' ∧
      GFSMaster.get_chunkuuids s' f = .ok [] ∧
      GFSClient.exists' s' f = true ∧
      GFSClient.read s' f = .error .typeError := by
  obtain ⟨s', hok, hWF', hcs, hN, hnx, hft, hstored, hct, hsv, hchar, hdel⟩ :=
    write_spec s f [] hWF
  have h00 : GFSClient.num_chunks s (List.length ([] : Bytes)) = 0 :=
    num_chunks_zero s
  rw [h00] at hft
  have hids : lookupA f s'.filetable = some [] := hft
  have hgu : GFSMaster.get_chunkuuids s' f = .ok [] := by
    unfold GFSMaster.get_chunkuuids
    rw [hids]
  have hex : GFSClient.exists' s' f = true := by
    unfold GFSClient.exists' GFSMaster.exists'
    rw [hids]
    rfl
  refine ⟨s', hok, hgu, hex, ?_⟩
  simp only [GFSClient.read, hex, if_true, hgu]
  rfl

theorem C10_empty_write_then_read_fails_witness :
    ∃ s', GFSClient.write initState "f" [] = .ok s' ∧
      GFSMaster.get_chunkuuids s' "f" = .ok [] ∧
      GFSClient.exists' s' "f" = true ∧
      GFSClient.read s' "f" = .error .typeError :=
  C10_empty_write_then_read_fails initState "f" WF_initState

/-- C1 fails as stated: at the explicit input `d = []` (the empty payload)
`read` immediately after `write` raises the reassembly `TypeError` instead
of returning `d`. -/
theorem C1_empty_payload_cex :
    GFSClient.write initState "f" [] = .ok emptyWriteState ∧
    GFSClient.read emptyWriteState "f" = .error .typeError ∧
    GFSClient.read emptyWriteState "f" ≠ .ok ([] : Bytes) := by
  refine ⟨?_, ?_, ?_⟩
  · decide
  · decide
  · decide

/-- C1 (amended to nonempty payloads): for every file name `f` and nonempty
byte payload `d`, `read(f)` immediately after `write(f, d)` returns
exactly `d`. -/
theorem C1_round_trip (s : GFSState) (f : String) (d : Bytes)
    (hWF : WF s) (hne : d ≠ []) :
    ∃ s', GFSClient.write s f d = .ok s' ∧ GFSClient.read s' f = .ok d := by
  obtain ⟨s', hok, hWF', hcs, hN, hnx, hft, hstored, hct, hsv, hchar, hdel⟩ :=
    write_spec s f d hWF
  refine ⟨s', hok, ?_⟩
  have hchunksne : GFSClient.split_chunks s.chunksize d ≠ [] := by
    intro h0
    have hfl := split_chunks_flatten s.chunksize hWF.hCS d
    rw [h0] at hfl
    exact hne hfl.symm
  have hread := read_ok s' f _ _ hft hstored hchunksne
  rwa [split_chunks_flatten s.chunksize hWF.hCS d] at hread

theorem C1_round_trip_witness :
    (([1, 2, 3, 4, 5, 6, 7, 8, 9, 10, 11, 12] : Bytes) ≠ []) ∧
    ∃ s', GFSClient.write initState "f"
        [1, 2, 3, 4, 5, 6, 7, 8, 9, 10, 11, 12] = .ok s' ∧
      GFSClient.read s' "f" = .ok [1, 2, 3, 4, 5, 6, 7, 8, 9, 10, 11, 12] :=
  ⟨by decide, C1_round_trip initState "f" _ WF_initState (by decide)⟩

/-- C2 fails as stated: at the explicit input `d1 = [], d2 = []` the final
`read` raises the reassembly `TypeError` instead of returning `d1 + d2`. -/
theorem C2_both_empty_cex :
    GFSClient.write initState "f" [] = .ok emptyWriteState ∧
    GFSClient.write_append emptyWriteState "f" [] = .ok emptyWriteState ∧
    GFSClient.read emptyWriteState "f" = .error .typeError ∧
    GFSClient.read emptyWriteState "f" ≠ .ok (([] : Bytes) ++ []) := by
  refine ⟨?_, ?_, ?_, ?_⟩
  · decide
  · decide
  · decide
  · decide

/-- C2 (amended: `d1 ++ d2` nonempty): `write(f, d1)`, then
`write_append(f, d2)`, then `read(f)` returns the byte concatenation
`d1 ++ d2`; the file's id sequence keeps the pre-existing order with the
newly allocated identifiers appended after it. -/
theorem C2_append_composition (s : GFSState) (f : String) (d1 d2 : Bytes)
    (hWF : WF s) (hne : d1 ++ d2 ≠ []) :
    ∃ s1 s2 ids1 ids2,
      GFSClient.write s f d1 = .ok s1 ∧
      lookupA f s1.filetable = some ids1 ∧
      GFSClient.write_append s1 f d2 = .ok s2 ∧
      lookupA f s2.filetable = some (ids1 ++ ids2) ∧
      GFSClient.read s2 f = .ok (d1 ++ d2) := by
  obtain ⟨s1, hok1, hWF1, hcs1, hN1, hnx1, hft1, hstored1, hct1, hsv1,
    hchar1, hdel1⟩ := write_spec s f d1 hWF
  obtain ⟨s2, hok2, hWF2, hcs2, hN2, hnx2, hft2, hstored2, hct2, hsv2⟩ :=
    append_spec s1 f d2 _ hWF1 hft1
  refine ⟨s1, s2, _, _, hok1, hft1, hok2, hft2, ?_⟩
  have hbound : ∀ id ∈ List.range' s.nextId
      (GFSClient.num_chunks s d1.length), id < s1.nextId := by
    intro id hid
    have := (mem_range'_bound hid).2
    omega
  have hstored1' := StoredAt_mono s1 s2 s1.nextId hbound hct2 hsv2 hstored1
  have hall := List.rel_append hstored1' hstored2
  have hsplit2 : GFSClient.split_chunks s1.chunksize d2
      = GFSClient.split_chunks s1.chunksize d2 := rfl
  have hchunksne : GFSClient.split_chunks s.chunksize d1
      ++ GFSClient.split_chunks s1.chunksize d2 ≠ [] := by
    intro h0
    rcases List.append_eq_nil.mp h0 with ⟨ha, hb⟩
    have hd1 : d1 = [] := by
      have hfl := split_chunks_flatten s.chunksize hWF.hCS d1
      rw [ha] at hfl
      exact hfl.symm
    have hd2 : d2 = [] := by
      have hfl := split_chunks_flatten s1.chunksize hWF1.hCS d2
      rw [hb] at hfl
      exact hfl.symm
    rw [hd1, hd2] at hne
    exact hne rfl
  have hread := read_ok s2 f _ _ hft2 hall hchunksne
  rw [List.flatten_append, split_chunks_flatten s.chunksize hWF.hCS d1,
    split_chunks_flatten s1.chunksize hWF1.hCS d2] at hread
  exact hread

theorem C2_append_composition_witness :
    (([1, 2] : Bytes) ++ [3] ≠ []) ∧
    ∃ s1 s2 ids1 ids2,
      GFSClient.write initState "f" [1, 2] = .ok s1 ∧
      lookupA "f" s1.filetable = some ids1 ∧
      GFSClient.write_append s1 "f" [3] = .ok s2 ∧
      lookupA "f" s2.filetable = some (ids1 ++ ids2) ∧
      GFSClient.read s2 "f" = .ok ([1, 2] ++ [3]) :=
  ⟨by decide,
    C2_append_composition initState "f" [1, 2] [3] WF_initState (by decide)⟩

/-- C8 fails as stated: at the explicit input `d1 = [1], d2 = []` the final
`read` raises the reassembly `TypeError` instead of returning `d2`. -/
theorem C8_empty_overwrite_cex :
    GFSClient.write initState "f" [1] = .ok oneByteState ∧
    GFSClient.write oneByteState "f" [] = .ok overwrittenState ∧
    GFSClient.read overwrittenState "f" = .error .typeError ∧
    GFSClient.read overwrittenState "f" ≠ .ok ([] : Bytes) := by
  refine ⟨?_, ?_, ?_, ?_⟩
  · decide
  · decide
  · decide
  · decide

/-- C8 (amended: `d2` nonempty): after `write(f, d1)` then `write(f, d2)`,
`read(f)` returns `d2`; the live chunk sequence of `f` contains none of the
identifiers allocated for `d1`, which remain reachable only under the
deleted/renamed key produced by the implicit delete inside the
second write. -/
theorem C8_overwrite (s : GFSState) (f : String) (d1 d2 : Bytes)
    (hWF : WF s) (hne : d2 ≠ []) :
    ∃ s1 s2 ids1 ids2,
      GFSClient.write s f d1 = .ok s1 ∧
      lookupA f s1.filetable = some ids1 ∧
      GFSClient.write s1 f d2 = .ok s2 ∧
      lookupA f s2.filetable = some ids2 ∧
      GFSClient.read s2 f = .ok d2 ∧
      (∀ id ∈ ids1, id ∉ ids2) ∧
      lookupA (GFSMaster.deleted_filename s1 f) s2.filetable = some ids1 ∧
      (∀ g ids', lookupA g s2.filetable = some ids' →
        (∃ id ∈ ids1, id ∈ ids') →
        g = GFSMaster.deleted_filename s1 f) := by
  obtain ⟨s1, hok1, hWF1, hcs1, hN1, hnx1, hft1, hstored1, hct1, hsv1,
    hchar1, hdel1⟩ := write_spec s f d1 hWF
  obtain ⟨s2, hok2, hWF2, hcs2, hN2, hnx2, hft2, hstored2, hct2, hsv2,
    hchar2, hdel2⟩ := write_spec s1 f d2 hWF1
  refine ⟨s1, s2, _, _, hok1, hft1, hok2, hft2, ?_, ?_, ?_, ?_⟩
  · have hchunksne : GFSClient.split_chunks s1.chunksize d2 ≠ [] := by
      intro h0
      have hfl := split_chunks_flatten s1.chunksize hWF1.hCS d2
      rw [h0] at hfl
      exact hne hfl.symm
    have hread := read_ok s2 f _ _ hft2 hstored2 hchunksne
    rwa [split_chunks_flatten s1.chunksize hWF1.hCS d2] at hread
  · intro id hid1 hid2
    have hb1 := (mem_range'_bound hid1).2
    have hb2 := (mem_range'_bound hid2).1
    omega
  · exact hdel2 _ hft1
  · intro g ids' hg hshare
    obtain ⟨id, hid1, hid'⟩ := hshare
    have hidlo := (mem_range'_bound hid1).1
    rcases hchar2 g ids' hg with ⟨hgf, hids'⟩ | ⟨hgf, hlk⟩ | ⟨hgd, hlk⟩
    · exfalso
      rw [hids'] at hid'
      have := (mem_range'_bound hid').1
      have := (mem_range'_bound hid1).2
      omega
    · exfalso
      rcases hchar1 g ids' hlk with ⟨hgf2, _⟩ | ⟨_, hlk2⟩ | ⟨_, hlk2⟩
      · exact hgf hgf2
      · have := hWF.hft_fresh g ids' hlk2 id hid'
        omega
      · have := hWF.hft_fresh f ids' hlk2 id hid'
        omega
    · exact hgd

theorem C8_overwrite_witness :
    (([9] : Bytes) ≠ []) ∧
    ∃ s1 s2 ids1 ids2,
      GFSClient.write initState "f" [1, 2] = .ok s1 ∧
      lookupA "f" s1.filetable = some ids1 ∧
      GFSClient.write s1 "f" [9] = .ok s2 ∧
      lookupA "f" s2.filetable = some ids2 ∧
      GFSClient.read s2 "f" = .ok [9] ∧
      (∀ id ∈ ids1, id ∉ ids2) ∧
      lookupA (GFSMaster.deleted_filename s1 "f") s2.filetable = some ids1 ∧
      (∀ g ids', lookupA g s2.filetable = some ids' →
        (∃ id ∈ ids1, id ∈ ids') →
        g = GFSMaster.deleted_filename s1 "f") :=
  ⟨by decide, C8_overwrite initState "f" [1, 2] [9] WF_initState (by decide)⟩

/-- C3: the splitting policy. The slices concatenate back to the payload
(consecutive, non-overlapping, order kept), every slice is 1..chunk-size
bytes with every non-final slice exactly chunk-size, the number of slices is
the ceiling-division chunk count and the number of ids any allocation call
returns equals the count requested; after a write the file's id list pairs
up positionally with the slice list — slice `i` sits, under identifier `i`,
on the server the placement table resolves for identifier `i`. -/
theorem C3_chunk_splitting (s : GFSState) (f : String) (d : Bytes)
    (hWF : WF s) :
    (GFSClient.split_chunks s.chunksize d).flatten = d ∧
    (∀ c ∈ (GFSClient.split_chunks s.chunksize d).dropLast,
      c.length = s.chunksize) ∧
    (∀ c ∈ GFSClient.split_chunks s.chunksize d,
      1 ≤ c.length ∧ c.length ≤ s.chunksize) ∧
    (GFSClient.split_chunks s.chunksize d).length
      = GFSClient.num_chunks s d.length ∧
    (∀ m, ((GFSMaster.alloc s f m).1).length = m) ∧
    (∃ s' ids, GFSClient.write s f d = .ok s' ∧
      GFSMaster.get_chunkuuids s' f = .ok ids ∧
      ids.length = (GFSClient.split_chunks s.chunksize d).length ∧
      List.Forall₂ (StoredAt s') ids (GFSClient.split_chunks s.chunksize d)) := by
  refine ⟨split_chunks_flatten s.chunksize hWF.hCS d,
    split_aux_dropLast s.chunksize hWF.hCS d.length d (Nat.le_refl _),
    split_chunks_mem_length s.chunksize hWF.hCS d,
    split_chunks_length s hWF.hCS d, ?_, ?_⟩
  · intro m
    obtain ⟨_, _, _, _, _, _, h7⟩ := alloc_chunks_fields m s
    rw [alloc_ids, h7, List.length_range']
  · obtain ⟨s', hok, hWF', hcs, hN, hnx, hft, hstored, hct, hsv, hchar,
      hdel⟩ := write_spec s f d hWF
    refine ⟨s', _, hok, ?_, ?_, hstored⟩
    · unfold GFSMaster.get_chunkuuids
      rw [hft]
    · rw [List.length_range', split_chunks_length s hWF.hCS d]

theorem C3_chunk_splitting_witness :
    (GFSClient.split_chunks initState.chunksize
        [1, 2, 3, 4, 5, 6, 7, 8, 9, 10, 11, 12]).flatten
      = [1, 2, 3, 4, 5, 6, 7, 8, 9, 10, 11, 12] ∧
    (∀ c ∈ (GFSClient.split_chunks initState.chunksize
        [1, 2, 3, 4, 5, 6, 7, 8, 9, 10, 11, 12]).dropLast,
      c.length = initState.chunksize) ∧
    (∀ c ∈ GFSClient.split_chunks initState.chunksize
        [1, 2, 3, 4, 5, 6, 7, 8, 9, 10, 11, 12],
      1 ≤ c.length ∧ c.length ≤ initState.chunksize) ∧
    (GFSClient.split_chunks initState.chunksize
        [1, 2, 3, 4, 5, 6, 7, 8, 9, 10, 11, 12]).length
      = GFSClient.num_chunks initState
          (List.length [1, 2, 3, 4, 5, 6, 7, 8, 9, 10, 11, 12]) ∧
    (∀ m, ((GFSMaster.alloc initState "f" m).1).length = m) ∧
    (∃ s' ids, GFSClient.write initState "f"
        [1, 2, 3, 4, 5, 6, 7, 8, 9, 10, 11, 12] = .ok s' ∧
      GFSMaster.get_chunkuuids s' "f" = .ok ids ∧
      ids.length = (GFSClient.split_chunks initState.chunksize
        [1, 2, 3, 4, 5, 6, 7, 8, 9, 10, 11, 12]).length ∧
      List.Forall₂ (StoredAt s') ids (GFSClient.split_chunks
        initState.chunksize [1, 2, 3, 4, 5, 6, 7, 8, 9, 10, 11, 12])) :=
  C3_chunk_splitting initState "f" [1, 2, 3, 4, 5, 6, 7, 8, 9, 10, 11, 12]
    WF_initState

/-- Inversion of a successful `alloc_append`. -/
theorem alloc_append_inv (s : GFSState) (f : String) (n : Nat)
    (ids : List Nat) (s2 : GFSState)
    (h : GFSMaster.alloc_append s f n = .ok (ids, s2)) :
    ∃ ids0, lookupA f s.filetable = some ids0 ∧
      ids = (GFSMaster.alloc_chunks s n).1 ∧
      s2 = { (GFSMaster.alloc_chunks s n).2 with
             filetable := insertA (GFSMaster.alloc_chunks s n).2.filetable f
               (ids0 ++ (GFSMaster.alloc_chunks s n).1) } := by
  unfold GFSMaster.alloc_append at h
  cases hlk : lookupA f s.filetable with
  | none =>
    rw [hlk] at h
    exact absurd h (by simp)
  | some ids0 =>
    rw [hlk] at h
    injection h with h
    exact ⟨ids0, rfl, (congrArg Prod.fst h).symm, (congrArg Prod.snd h).symm⟩

/-- Inversion of a successful `delete`. -/
theorem delete_inv (s : GFSState) (f : String) (s2 : GFSState)
    (h : GFSMaster.delete s f = .ok s2) :
    ∃ ids, lookupA f s.filetable = some ids ∧
      s2 = { s with
             filetable := insertA (eraseA s.filetable f)
               (GFSMaster.deleted_filename s f) ids
             clock := s.clock + 1 } := by
  unfold GFSMaster.delete at h
  cases hlk : lookupA f s.filetable with
  | none =>
    rw [hlk] at h
    exact absurd h (by simp)
  | some ids =>
    rw [hlk] at h
    injection h with h
    exact ⟨ids, rfl, h.symm⟩

/-- C5: the round-robin cursor. Allocating `n` chunks advances the cursor by
exactly `n` single-slot steps modulo the pool size (so the per-chunk
placement indices cycle `0..N-1` in order, as the placement conjunct shows),
both `alloc` and `alloc_append` advance the shared cursor the same way
regardless of which file is involved, and `delete` never resets it. -/
theorem C5_round_robin (s : GFSState) (hWF : WF s) :
    (∀ n, (GFSMaster.alloc_chunks s n).2.chunkrobin
      = (s.chunkrobin + n) % s.num_chunkservers) ∧
    (∀ n i, i < n →
      lookupA (s.nextId + i) (GFSMaster.alloc_chunks s n).2.chunktable
        = some ((s.chunkrobin + i) % s.num_chunkservers)) ∧
    (∀ f n, (GFSMaster.alloc s f n).2.chunkrobin
      = (s.chunkrobin + n) % s.num_chunkservers) ∧
    (∀ f n ids s2, GFSMaster.alloc_append s f n = .ok (ids, s2) →
      s2.chunkrobin = (s.chunkrobin + n) % s.num_chunkservers) ∧
    (∀ f s2, GFSMaster.delete s f = .ok s2 →
      s2.chunkrobin = s.chunkrobin) := by
  refine ⟨?_, ?_, ?_, ?_, ?_⟩
  · intro n
    exact alloc_chunks_robin n s hWF.hrobin
  · intro n i hi
    exact alloc_chunks_ct_lookup_new s n i hWF.hct_fresh hWF.hrobin hi
  · intro f n
    rw [alloc_proj]
    exact alloc_chunks_robin n s hWF.hrobin
  · intro f n ids s2 h
    obtain ⟨ids0, _, _, hs2⟩ := alloc_append_inv s f n ids s2 h
    rw [hs2]
    exact alloc_chunks_robin n s hWF.hrobin
  · intro f s2 h
    obtain ⟨ids, _, hs2⟩ := delete_inv s f s2 h
    rw [hs2]

theorem C5_round_robin_witness :
    (∀ n, (GFSMaster.alloc_chunks initState n).2.chunkrobin
      = (initState.chunkrobin + n) % initState.num_chunkservers) ∧
    (∀ n i, i < n →
      lookupA (initState.nextId + i)
          (GFSMaster.alloc_chunks initState n).2.chunktable
        = some ((initState.chunkrobin + i) % initState.num_chunkservers)) ∧
    (∀ f n, (GFSMaster.alloc initState f n).2.chunkrobin
      = (initState.chunkrobin + n) % initState.num_chunkservers) ∧
    (∀ f n ids s2, GFSMaster.alloc_append initState f n = .ok (ids, s2) →
      s2.chunkrobin = (initState.chunkrobin + n) % initState.num_chunkservers) ∧
    (∀ f s2, GFSMaster.delete initState f = .ok s2 →
      s2.chunkrobin = initState.chunkrobin) :=
  C5_round_robin initState WF_initState

/-- C6: deleting a present file. `delete(f)` succeeds; afterwards
`exists(f)` is false and `read(f)` fails with the read-side
file-not-found error; the identical chunk-id sequence is still resolvable
under the renamed key (deleted-namespace prefix + timestamp + original
name); the chunk placement table and every chunkserver's stored payloads
are untouched. -/
theorem C6_delete_semantics (s : GFSState) (f : String) (ids : List Nat)
    (hWF : WF s) (hft : lookupA f s.filetable = some ids) :
    ∃ s', GFSClient.delete s f = .ok s' ∧
      GFSClient.exists' s' f = false ∧
      GFSClient.read s' f = .error (.readError f) ∧
      GFSMaster.get_chunkuuids s'
        (GFSMaster.deleted_filename s f) = .ok ids ∧
      s'.chunktable = s.chunktable ∧
      s'.chunkservers = s.chunkservers := by
  have hdel := delete_ok s f ids hft
  refine ⟨_, hdel, ?_, ?_, ?_, rfl, rfl⟩
  · unfold GFSClient.exists' GFSMaster.exists'
    show (lookupA f (insertA (eraseA s.filetable f)
      (GFSMaster.deleted_filename s f) ids)).isSome = false
    rw [delete_ft_lookup_self s f ids hWF.hft_nodup]
    rfl
  · have hex : GFSClient.exists'
        { s with
          filetable := insertA (eraseA s.filetable f)
            (GFSMaster.deleted_filename s f) ids
          clock := s.clock + 1 } f = false := by
      unfold GFSClient.exists' GFSMaster.exists'
      show (lookupA f (insertA (eraseA s.filetable f)
        (GFSMaster.deleted_filename s f) ids)).isSome = false
      rw [delete_ft_lookup_self s f ids hWF.hft_nodup]
      rfl
    simp only [GFSClient.read, hex, Bool.false_eq_true, if_false]
  · unfold GFSMaster.get_chunkuuids
    show (match lookupA (GFSMaster.deleted_filename s f)
        (insertA (eraseA s.filetable f)
          (GFSMaster.deleted_filename s f) ids) with
      | none => (.error .keyError : Except GFSError (List Nat))
      | some chunkuuids => .ok chunkuuids) = .ok ids
    rw [delete_ft_lookup_deleted s f ids]

theorem C6_delete_semantics_witness :
    lookupA "f" emptyWriteState.filetable = some [] ∧
    ∃ s', GFSClient.delete emptyWriteState "f" = .ok s' ∧
      GFSClient.exists' s' "f" = false ∧
      GFSClient.read s' "f" = .error (.readError "f") ∧
      GFSMaster.get_chunkuuids s'
        (GFSMaster.deleted_filename emptyWriteState "f") = .ok [] ∧
      s'.chunktable = emptyWriteState.chunktable ∧
      s'.chunkservers = emptyWriteState.chunkservers :=
  ⟨by decide,
    C6_delete_semantics emptyWriteState "f" [] WF_emptyWriteState (by decide)⟩

/-! ### Reachability by master operations -/

/-- States reachable from a fresh master by the state-changing master
operations (`alloc`, `alloc_append`, `delete`). -/
inductive Reachable : GFSState → Prop where
  | init : Reachable initState
  | alloc (s : GFSState) (f : String) (n : Nat) :
      Reachable s → Reachable (GFSMaster.alloc s f n).2
  | alloc_append (s : GFSState) (f : String) (n : Nat) (ids : List Nat)
      (s2 : GFSState) : Reachable s →
      GFSMaster.alloc_append s f n = .ok (ids, s2) → Reachable s2
  | delete (s : GFSState) (f : String) (s2 : GFSState) : Reachable s →
      GFSMaster.delete s f = .ok s2 → Reachable s2

theorem reachable_WF (s : GFSState) (h : Reachable s) : WF s := by
  induction h with
  | init => exact WF_initState
  | alloc s f n _ ih => exact WF_alloc s f n ih
  | alloc_append s f n ids s2 _ hok ih =>
    obtain ⟨ids0, hlk, _, hs2⟩ := alloc_append_inv s f n ids s2 hok
    rw [hs2]
    exact WF_alloc_append s f n ids0 ih hlk
  | delete s f s2 _ hok ih =>
    obtain ⟨ids, hlk, hs2⟩ := delete_inv s f s2 hok
    rw [hs2]
    exact WF_delete s f ids ih hlk

theorem countP_key_eq_one {β : Type} (l : List (Nat × β)) (k : Nat)
    (hnd : (l.map Prod.fst).Nodup) (h : (lookupA k l).isSome = true) :
    l.countP (fun p => p.1 == k) = 1 := by
  induction l with
  | nil => simp [lookupA] at h
  | cons p t ih =>
    obtain ⟨a, b⟩ := p
    simp only [List.map_cons, List.nodup_cons] at hnd
    rw [List.countP_cons]
    by_cases hka : k = a
    · subst hka
      have h0 : t.countP (fun p => p.1 == k) = 0 := by
        rw [List.countP_eq_zero]
        intro q hq
        have hqk : q.1 ≠ k := by
          intro he
          exact hnd.1 (he ▸ List.mem_map_of_mem Prod.fst hq)
        simp [hqk]
      rw [h0]
      simp
    · rw [lookupA, if_neg hka] at h
      rw [ih hnd.2 h]
      have : ((a, b).1 == k) = false := by
        simp only [Prod.fst]
        exact beq_eq_false_iff_ne.mpr (fun he => hka he.symm)
      rw [this]
      rfl

/-- C9: in every state reachable by master operations, every chunk id in any
file-table entry (live or deleted-namespace) has exactly one placement
entry; and no master operation changes an existing placement — across
`alloc`, `alloc_append` and `delete`, a chunk id's server index, once
assigned, stays the same for its entire lifetime. -/
theorem C9_placement_invariant (s : GFSState) (hreach : Reachable s) :
    (∀ f ids, lookupA f s.filetable = some ids → ∀ id ∈ ids,
      s.chunktable.countP (fun p => p.1 == id) = 1) ∧
    (∀ f n id loc, lookupA id s.chunktable = some loc →
      lookupA id (GFSMaster.alloc s f n).2.chunktable = some loc) ∧
    (∀ f n ids s2, GFSMaster.alloc_append s f n = .ok (ids, s2) →
      ∀ id loc, lookupA id s.chunktable = some loc →
        lookupA id s2.chunktable = some loc) ∧
    (∀ f s2, GFSMaster.delete s f = .ok s2 →
      ∀ id loc, lookupA id s.chunktable = some loc →
        lookupA id s2.chunktable = some loc) := by
  have hWF := reachable_WF s hreach
  have hold : ∀ n id loc, lookupA id s.chunktable = some loc →
      lookupA id (GFSMaster.alloc_chunks s n).2.chunktable = some loc := by
    intro n id loc hlk
    have hb : id < s.nextId := by
      have hm := mem_of_lookupA_eq_some hlk
      exact hWF.hct_fresh _ hm
    rw [alloc_chunks_ct_lookup_old s n id hWF.hct_fresh hWF.hrobin hb]
    exact hlk
  refine ⟨?_, ?_, ?_, ?_⟩
  · intro f ids hf id hid
    exact countP_key_eq_one s.chunktable id hWF.hct_nodup
      (hWF.hplace f ids hf id hid)
  · intro f n id loc hlk
    rw [alloc_proj]
    exact hold n id loc hlk
  · intro f n ids s2 hok id loc hlk
    obtain ⟨ids0, _, _, hs2⟩ := alloc_append_inv s f n ids s2 hok
    rw [hs2]
    exact hold n id loc hlk
  · intro f s2 hok id loc hlk
    obtain ⟨ids, _, hs2⟩ := delete_inv s f s2 hok
    rw [hs2]
    exact hlk

theorem C9_placement_invariant_witness :
    (∀ f ids, lookupA f initState.filetable = some ids → ∀ id ∈ ids,
      initState.chunktable.countP (fun p => p.1 == id) = 1) ∧
    (∀ f n id loc, lookupA id initState.chunktable = some loc →
      lookupA id (GFSMaster.alloc initState f n).2.chunktable = some loc) ∧
    (∀ f n ids s2, GFSMaster.alloc_append initState f n = .ok (ids, s2) →
      ∀ id loc, lookupA id initState.chunktable = some loc →
        lookupA id s2.chunktable = some loc) ∧
    (∀ f s2, GFSMaster.delete initState f = .ok s2 →
      ∀ id loc, lookupA id initState.chunktable = some loc →
        lookupA id s2.chunktable = some loc) :=
  C9_placement_invariant initState Reachable.init
